import Mathlib

/-!
Verification of the RTF sample pipeline of `ign_imgui` (`src/main.cc`,
`src/CsvUtils.hh`) against its natural-language specification.

The embedding models:
  * the CSV field reader `GetNextCsv` / `GetNewLine` of `CsvUtils.hh`
    (C++ `std::getline` up to a comma, strict `eof` check of the inner
    string stream after extraction);
  * the session codec `ToCsv` / `FromCsv` of `main.cc`, including the
    default `std::ostream` formatting of `double` values (6 significant
    digits, `%g` style) and the trailing-data drain loop of `FromCsv`;
  * the clock callback (baseline replacement, instantaneous RTF,
    finiteness filter), the bounded `rtfs` buffer, and the Reset button
    handler of `main.cc`;
  * the histogram and signal-statistics accumulators.  Their sources
    (`Histogram.hh`, ignition::math `SignalStats`) are not part of the
    two files under review, so those definitions are modelled from the
    specification and are marked as such in their doc comments.

Numbers are embedded as `Nat` (for `size_t`, with the C++ conversion
clamping modelled explicitly where overflow matters) and `ℚ` (for
`double`/`float` values; arithmetic on the values reached by the claims
is exact in the binary formats, and the information loss the theorems
exhibit comes from the decimal text format, not from binary rounding).
-/

/-- Whitespace test matching `std::isspace` in the default locale
(space, tab, newline, vertical tab, form feed, carriage return). -/
def isWs (c : Char) : Bool :=
  c = ' ' || c = '\t' || c = '\n' || c = '\x0b' || c = '\x0c' || c = '\r'

/-- Decimal digit test. -/
def isDigit (c : Char) : Bool :=
  48 ≤ c.toNat && c.toNat ≤ 57

/-- Value of a decimal digit character. -/
def digitVal (c : Char) : Nat := c.toNat - 48

/-- Character for a decimal digit. -/
def digitChar (d : Nat) : Char :=
  match d with
  | 0 => '0' | 1 => '1' | 2 => '2' | 3 => '3' | 4 => '4'
  | 5 => '5' | 6 => '6' | 7 => '7' | 8 => '8' | _ => '9'

/-- Accumulate a big-endian list of digit characters into a natural
number, as the strict stream extraction does. -/
def foldDigits (cs : List Char) : Nat :=
  cs.foldl (fun a c => 10 * a + digitVal c) 0

/-- Big-endian decimal digits of `n`, with explicit fuel (the recursion
is on the fuel, so the definition unfolds by kernel reduction). -/
def decCharsAux (fuel : Nat) (n : Nat) : List Char :=
  match fuel with
  | 0 => []
  | f + 1 => if n = 0 then [] else decCharsAux f (n / 10) ++ [digitChar (n % 10)]

/-- Decimal notation of a natural number, as `operator<<` prints it. -/
def decChars (n : Nat) : List Char :=
  if n = 0 then ['0'] else decCharsAux (n + 1) n

/-- Fueled base-10 logarithm (`log10F n n` is `⌊log10 n⌋` for `1 ≤ n`). -/
def log10F (fuel : Nat) (n : Nat) : Nat :=
  match fuel with
  | 0 => 0
  | f + 1 => if n < 10 then 0 else log10F f (n / 10) + 1

theorem digitVal_digitChar {d : Nat} (h : d < 10) : digitVal (digitChar d) = d := by
  interval_cases d <;> rfl

theorem isDigit_digitChar {d : Nat} (h : d < 10) : isDigit (digitChar d) = true := by
  interval_cases d <;> rfl

theorem isWs_digitChar {d : Nat} (h : d < 10) : isWs (digitChar d) = false := by
  interval_cases d <;> rfl

theorem digitChar_ne_comma {d : Nat} (h : d < 10) : digitChar d ≠ ',' := by
  interval_cases d <;> decide

theorem foldDigits_acc (B : List Char) (a : Nat) :
    B.foldl (fun a c => 10 * a + digitVal c) a = a * 10 ^ B.length + foldDigits B := by
  induction B generalizing a with
  | nil => simp [foldDigits]
  | cons c B ih =>
    have h1 := ih (10 * a + digitVal c)
    have h2 := ih (10 * 0 + digitVal c)
    simp only [List.foldl_cons, List.length_cons, foldDigits] at h1 h2 ⊢
    rw [h1, h2]
    ring

theorem foldDigits_append (A B : List Char) :
    foldDigits (A ++ B) = foldDigits A * 10 ^ B.length + foldDigits B := by
  unfold foldDigits
  rw [List.foldl_append]
  exact foldDigits_acc B _

theorem foldDigits_cons_zero (L : List Char) :
    foldDigits ('0' :: L) = foldDigits L := by
  unfold foldDigits
  simp only [List.foldl_cons]
  have h : digitVal '0' = 0 := by decide
  simp [h]

theorem foldDigits_replicate_zero (z : Nat) :
    foldDigits (List.replicate z '0') = 0 := by
  induction z with
  | zero => rfl
  | succ z ih =>
    rw [List.replicate_succ, foldDigits_cons_zero, ih]

theorem decCharsAux_zero (fuel : Nat) : decCharsAux fuel 0 = [] := by
  cases fuel <;> rfl

theorem decCharsAux_spec (fuel : Nat) :
    ∀ n, n ≤ fuel →
      foldDigits (decCharsAux fuel n) = n ∧
      ∀ c ∈ decCharsAux fuel n, isDigit c = true := by
  induction fuel with
  | zero =>
    intro n hn
    interval_cases n
    simp [decCharsAux, foldDigits]
  | succ f ih =>
    intro n hn
    by_cases h0 : n = 0
    · subst h0; simp [decCharsAux, foldDigits]
    · have hdiv : n / 10 ≤ f := by
        have : n / 10 < n := Nat.div_lt_self (Nat.pos_of_ne_zero h0) (by norm_num)
        omega
      obtain ⟨ihf, ihd⟩ := ih (n / 10) hdiv
      constructor
      · simp only [decCharsAux, if_neg h0]
        rw [foldDigits_append, ihf]
        simp [foldDigits, digitVal_digitChar (Nat.mod_lt n (by norm_num : (0:Nat) < 10))]
        omega
      · intro c hc
        simp only [decCharsAux, if_neg h0, List.mem_append, List.mem_singleton] at hc
        rcases hc with hc | hc
        · exact ihd c hc
        · subst hc; exact isDigit_digitChar (Nat.mod_lt n (by norm_num))

theorem foldDigits_decChars (n : Nat) : foldDigits (decChars n) = n := by
  by_cases h0 : n = 0
  · subst h0; rfl
  · simp only [decChars, if_neg h0]
    exact (decCharsAux_spec (n + 1) n (by omega)).1

theorem decChars_digits (n : Nat) : ∀ c ∈ decChars n, isDigit c = true := by
  by_cases h0 : n = 0
  · subst h0; decide
  · simp only [decChars, if_neg h0]
    exact (decCharsAux_spec (n + 1) n (by omega)).2

theorem decChars_ne_nil (n : Nat) : decChars n ≠ [] := by
  by_cases h0 : n = 0
  · subst h0; decide
  · simp only [decChars, if_neg h0]
    match hf : n with
    | m + 1 => simp [decCharsAux]

theorem isDigit_not_ws {c : Char} (h : isDigit c = true) : isWs c = false := by
  simp only [isDigit, Bool.and_eq_true, decide_eq_true_eq] at h
  simp only [isWs, Bool.or_eq_false_iff, decide_eq_false_iff_not]
  refine ⟨⟨⟨⟨⟨?_, ?_⟩, ?_⟩, ?_⟩, ?_⟩, ?_⟩ <;>
    (intro hc; subst hc; revert h; decide)

theorem isDigit_not_comma {c : Char} (h : isDigit c = true) : c ≠ ',' := by
  intro hc; subst hc; revert h; decide

theorem decChars_not_ws (n : Nat) : ∀ c ∈ decChars n, isWs c = false :=
  fun c hc => isDigit_not_ws (decChars_digits n c hc)

theorem decChars_not_comma (n : Nat) : ∀ c ∈ decChars n, c ≠ ',' :=
  fun c hc => isDigit_not_comma (decChars_digits n c hc)

theorem decCharsAux_length (k : Nat) :
    ∀ fuel n, n ≤ fuel → 10 ^ k ≤ n → n < 10 ^ (k + 1) →
      (decCharsAux fuel n).length = k + 1 := by
  induction k with
  | zero =>
    intro fuel n hfuel hlo hhi
    have h0 : n ≠ 0 := by simpa using Nat.one_le_iff_ne_zero.mp hlo
    match fuel with
    | 0 => omega
    | f + 1 =>
      have hdiv : n / 10 = 0 := Nat.div_eq_of_lt (by simpa using hhi)
      simp [decCharsAux, if_neg h0, hdiv, decCharsAux_zero]
  | succ k ih =>
    intro fuel n hfuel hlo hhi
    have h0 : n ≠ 0 := by
      have : 0 < 10 ^ (k + 1) := pow_pos (by norm_num) _
      omega
    match fuel with
    | 0 => omega
    | f + 1 =>
      have hd1 : 10 ^ k ≤ n / 10 := by
        rw [Nat.le_div_iff_mul_le (by norm_num : (0:Nat) < 10)]
        calc 10 ^ k * 10 = 10 ^ (k + 1) := by ring
        _ ≤ n := hlo
      have hd2 : n / 10 < 10 ^ (k + 1) := by
        rw [Nat.div_lt_iff_lt_mul (by norm_num : (0:Nat) < 10)]
        calc n < 10 ^ (k + 1 + 1) := hhi
        _ = 10 ^ (k + 1) * 10 := by ring
      have hfl : n / 10 ≤ f := by
        have : n / 10 < n := Nat.div_lt_self (Nat.pos_of_ne_zero h0) (by norm_num)
        omega
      simp only [decCharsAux, if_neg h0, List.length_append, List.length_singleton]
      rw [ih f (n / 10) hfl hd1 hd2]

theorem decChars_length_six {m : Nat} (hlo : 10 ^ 5 ≤ m) (hhi : m < 10 ^ 6) :
    (decChars m).length = 6 := by
  have h0 : m ≠ 0 := by
    have : (0:Nat) < 10 ^ 5 := by norm_num
    omega
  simp only [decChars, if_neg h0]
  exact decCharsAux_length 5 (m + 1) m (by omega) hlo hhi

theorem log10F_bounds :
    ∀ fuel n, 1 ≤ n → n ≤ fuel →
      10 ^ log10F fuel n ≤ n ∧ n < 10 ^ (log10F fuel n + 1) := by
  intro fuel
  induction fuel with
  | zero => intro n h1 h2; omega
  | succ f ih =>
    intro n h1 h2
    by_cases hsmall : n < 10
    · simp only [log10F, if_pos hsmall]
      constructor
      · simpa using h1
      · simpa using hsmall
    · push_neg at hsmall
      have hm1 : 1 ≤ n / 10 := (Nat.le_div_iff_mul_le (by norm_num)).mpr (by omega)
      have hm2 : n / 10 ≤ f := by
        have : n / 10 < n := Nat.div_lt_self (by omega) (by norm_num)
        omega
      obtain ⟨ihl, ihh⟩ := ih (n / 10) hm1 hm2
      simp only [log10F, if_neg (by omega : ¬ n < 10)]
      constructor
      · calc 10 ^ (log10F f (n / 10) + 1) = 10 ^ log10F f (n / 10) * 10 := by ring
        _ ≤ (n / 10) * 10 := by exact Nat.mul_le_mul_right 10 ihl
        _ ≤ n := by
            have := Nat.div_mul_le_self n 10
            omega
      · calc n < (n / 10 + 1) * 10 := by
              have h := Nat.div_add_mod n 10
              have h2 : n % 10 < 10 := Nat.mod_lt n (by norm_num)
              omega
        _ ≤ 10 ^ (log10F f (n / 10) + 1) * 10 := by
              exact Nat.mul_le_mul_right 10 ihh
        _ = 10 ^ (log10F f (n / 10) + 1 + 1) := by ring

/-- Error thrown by `IGN_IMGUI_CHECK_STREAM` in `CsvUtils.hh`
(a single `std::runtime_error` kind). -/
inductive ParseError
  | fail
deriving DecidableEq

/-- Optional leading sign of a numeric extraction (`std::num_get`
accepts one `-` or `+` before the digits). -/
def splitSign (s : List Char) : Bool × List Char :=
  match s with
  | [] => (false, [])
  | c :: t =>
    if c = '-' then (true, t)
    else if c = '+' then (false, t)
    else (false, c :: t)

/-- Maximal run of decimal digits and the remaining characters. -/
def splitDigits (s : List Char) : List Char × List Char :=
  (s.takeWhile isDigit, s.dropWhile isDigit)

/-- Value of a parsed mantissa `I.F` with an optional minus sign. -/
def mantissaVal (neg : Bool) (I F : List Char) : ℚ :=
  (if neg then -1 else 1) * ((foldDigits I : ℚ) + (foldDigits F : ℚ) / 10 ^ F.length)

/-- Value of a parsed exponent with an optional minus sign. -/
def expVal (eneg : Bool) (E : List Char) : ℤ :=
  (if eneg then -1 else 1) * (foldDigits E : ℤ)

/-- Continuation of `parseDouble` after the integer digits `I` and the
fraction digits `F` have been taken: an exponent marker is consumed only
after at least one mantissa digit, and the whole extraction fails (with
the marker and sign consumed, as the two-stage C++ extraction does) when
no exponent digits follow it. -/
def parseAfterMant (neg : Bool) (I F s : List Char) : Option ℚ × List Char :=
  if I = [] ∧ F = [] then (none, s)
  else if s.head? = some 'e' ∨ s.head? = some 'E' then
    let p := splitSign s.tail
    let q := splitDigits p.2
    if q.1 = [] then (none, q.2)
    else (some (mantissaVal neg I F * (10 : ℚ) ^ expVal p.1 q.1), q.2)
  else (some (mantissaVal neg I F), s)

/-- Extraction of a `double` by `operator>>` on a string stream: skip
whitespace, take `[sign] digits [. digits] [e [sign] digits]` maximally;
the result is `none` (failed extraction, value set to 0 since C++11)
when no mantissa digit is present, together with the unconsumed rest of
the stream.  Hexfloat forms are not modelled (never produced by the
encoder and reached by no claim). -/
def parseDouble (cs : List Char) : Option ℚ × List Char :=
  let s0 := cs.dropWhile isWs
  let p1 := splitSign s0
  let p2 := splitDigits p1.2
  if p2.2.head? = some '.' then
    let p3 := splitDigits p2.2.tail
    parseAfterMant p1.1 p2.1 p3.1 p3.2
  else
    parseAfterMant p1.1 p2.1 [] p2.2

/-- Extraction of a `size_t` by `operator>>`: skip whitespace, optional
sign, maximal digit run; out-of-range values clamp to `2^64 - 1` and a
minus sign wraps modulo `2^64`, as `std::num_get` specifies (the
enclosing field check only inspects the stream position, so these
still parse). -/
def parseNat64 (cs : List Char) : Option Nat × List Char :=
  let p1 := splitSign (cs.dropWhile isWs)
  let p2 := splitDigits p1.2
  if p2.1 = [] then (none, p2.2)
  else
    let n := foldDigits p2.1
    (some (if 2 ^ 64 ≤ n then 2 ^ 64 - 1
           else if p1.1 then (2 ^ 64 - n % 2 ^ 64) % 2 ^ 64 else n), p2.2)

/-- Strict field conversion of `GetNextCsv` (`CsvUtils.hh` lines 34-43)
for a `double` destination holding `prev`: `sst >> value` followed by
`IGN_IMGUI_CHECK_STREAM(sst, eof)`.  When the field is empty after
whitespace skipping, the sentry of `operator>>` fails (setting
`failbit` and `eofbit`) before `num_get` runs, so the destination keeps
its previous value and the `eof` check still passes.  Otherwise
`num_get` runs: a conversion failure writes the value 0 (C++11), and
the check passes exactly when the whole field was consumed. -/
def FieldD (prev : ℚ) (F : List Char) : Except ParseError ℚ :=
  if F.dropWhile isWs = [] then .ok prev
  else
    match parseDouble F with
    | (some v, []) => .ok v
    | (none, []) => .ok 0
    | (_, _ :: _) => .error .fail

/-- Strict field conversion of `GetNextCsv` for a `size_t` destination
holding `prev` (same sentry semantics as `FieldD`). -/
def FieldN (prev : Nat) (F : List Char) : Except ParseError Nat :=
  if F.dropWhile isWs = [] then .ok prev
  else
    match parseNat64 F with
    | (some v, []) => .ok v
    | (none, []) => .ok 0
    | (_, _ :: _) => .error .fail

/-- The `std::getline(ist, str, ',')` step of `GetNextCsv` followed by
`IGN_IMGUI_CHECK_STREAM(ist, good)`: the field is the characters before
the first comma; reaching end of input before a comma sets `eofbit`
(or `failbit` on an empty stream), so the `good` check throws. -/
def getField : List Char → Except ParseError (List Char × List Char)
  | [] => .error .fail
  | c :: t =>
    if c = ',' then .ok ([], t)
    else
      match getField t with
      | .error e => .error e
      | .ok (F, r) => .ok (c :: F, r)

/-- The `GetNextCsv` of `CsvUtils.hh` instantiated at a `double`
destination whose value before the call is `prev`. -/
def GetNextCsvD (prev : ℚ) (s : List Char) : Except ParseError (ℚ × List Char) :=
  match getField s with
  | .error e => .error e
  | .ok (F, r) =>
    match FieldD prev F with
    | .error e => .error e
    | .ok v => .ok (v, r)

/-- The `GetNextCsv` of `CsvUtils.hh` instantiated at a `size_t`
destination whose value before the call is `prev`. -/
def GetNextCsvN (prev : Nat) (s : List Char) : Except ParseError (Nat × List Char) :=
  match getField s with
  | .error e => .error e
  | .ok (F, r) =>
    match FieldN prev F with
    | .error e => .error e
    | .ok v => .ok (v, r)

/-- The `GetNewLine` of `CsvUtils.hh`: `ist >> std::ws` then
`IGN_IMGUI_CHECK_STREAM(ist, good)` — skip whitespace and fail exactly
when that runs into end of input (note that no newline is actually
required, matching the source). -/
def GetNewLine (s : List Char) : Except ParseError (List Char) :=
  let r := s.dropWhile isWs
  if r = [] then .error .fail else .ok r

/-- State of the `while (ist.good()) { ist >> str; ... }` drain loop at
the end of `FromCsv` (`main.cc` lines 97-103): each `>>` skips
whitespace and extracts a token; the loop leaves the loop only by
running into end of input, which sets `eofbit`.  Returns the value of
`ist.eof()` after the loop; the fuel bounds the iteration count. -/
def drainEof (fuel : Nat) (s : List Char) : Bool :=
  match fuel with
  | 0 => false
  | f + 1 =>
    let s1 := s.dropWhile isWs
    if s1 = [] then true
    else
      let rest := s1.dropWhile (fun c => !isWs c)
      if rest = [] then true else drainEof f rest

/-- Decimal exponent of a positive rational: the unique `e` with
`10^e ≤ x < 10^(e+1)`, computed from the numerator and denominator. -/
def decExp (x : ℚ) : ℤ :=
  let p := x.num.toNat
  let q := x.den
  let k := log10F q q + 1
  let n := p * 10 ^ k / q
  (log10F n n : ℤ) - k

/-- Six-significant-digit decimal mantissa and exponent of a positive
rational, as the default-precision `%g` conversion computes them (the
tie-breaking direction of the decimal rounding is immaterial to every
value reached here; round-half-up is used). -/
def norm6 (x : ℚ) : Nat × ℤ :=
  let e := decExp x
  let m := (⌊x * (10 : ℚ) ^ ((5 : ℤ) - e) + 1 / 2⌋).toNat
  if m = 10 ^ 6 then (10 ^ 5, e + 1) else (m, e)

/-- Remove trailing zero characters (`%g` strips trailing zeros). -/
def stripZeros (R : List Char) : List Char :=
  (R.reverse.dropWhile (fun c => c = '0')).reverse

/-- Exponent part of scientific notation: `e`, an explicit sign, and at
least two exponent digits, as `%g` prints it. -/
def expChars (e : ℤ) : List Char :=
  'e' :: (if e < 0 then '-' else '+') ::
    (let d := decChars e.natAbs
     if d.length < 2 then '0' :: d else d)

/-- Placement of the decimal point for `%g` output given the stripped
significant digits `D` and the decimal exponent `e`: scientific notation
when `e < -4` or `e ≥ 6`, fixed notation otherwise. -/
def render6 (D : List Char) (e : ℤ) : List Char :=
  if e < -4 ∨ 6 ≤ e then
    (match D with
     | [] => []
     | [d] => [d]
     | d :: rest => d :: '.' :: rest) ++ expChars e
  else if e < 0 then
    '0' :: '.' :: (List.replicate (e.natAbs - 1) '0' ++ D)
  else if D.length ≤ e.toNat + 1 then
    D ++ List.replicate (e.toNat + 1 - D.length) '0'
  else
    D.take (e.toNat + 1) ++ '.' :: D.drop (e.toNat + 1)

/-- Text produced for a finite `double` by `ost << x` at the default
stream precision 6 (`%g` conversion). -/
def fmtDouble (x : ℚ) : List Char :=
  if x = 0 then ['0']
  else
    (if x < 0 then ['-'] else []) ++
      (render6 (stripZeros (decChars (norm6 |x|).1)) (norm6 |x|).2)

/-- Modelled from the spec: the histogram accumulator of `Histogram.hh`
is not among the sources under review; its state per section 3 of the
design is `numBins`, the range `[rangeMin, rangeMax)` and one count per
bin. -/
structure Histogram where
  numBins : Nat
  rangeMin : ℚ
  rangeMax : ℚ
  counts : List Nat
deriving DecidableEq

/-- Freshly configured histogram (`SetNumBins` then `SetRange`, as
`main.cc` lines 172-175 do; configuring resets the counts). -/
def Histogram.init (nb : Nat) (lo hi : ℚ) : Histogram :=
  ⟨nb, lo, hi, List.replicate nb 0⟩

/-- Modelled from the spec: bin index
`clamp(floor((x - rangeMin) / (rangeMax - rangeMin) * numBins), 0, numBins - 1)`. -/
def Histogram.binIndex (h : Histogram) (x : ℚ) : Nat :=
  (min (max (⌊(x - h.rangeMin) / (h.rangeMax - h.rangeMin) * (h.numBins : ℚ)⌋) 0)
    ((h.numBins : ℤ) - 1)).toNat

/-- Modelled from the spec: `InsertData` increments the clamped bin;
every inserted sample is counted somewhere. -/
def Histogram.InsertData (h : Histogram) (x : ℚ) : Histogram :=
  { h with counts := h.counts.set (h.binIndex x) (h.counts.getD (h.binIndex x) 0 + 1) }

/-- Modelled from the spec: `Reset` zeroes all bin counts and keeps the
configuration. -/
def Histogram.Reset (h : Histogram) : Histogram :=
  { h with counts := List.replicate h.numBins 0 }

/-- Modelled from the spec: `Histogram::ToCsv` writes the two histogram
lines of the session file, `numBins,rangeMin,rangeMax,` and
`count_0,...,count_{numBins-1},`, each field comma-terminated and each
line ended by a newline (sections 4.5 and 6 of the design). -/
def Histogram.ToCsv (h : Histogram) : List Char :=
  decChars h.numBins ++ ',' :: (fmtDouble h.rangeMin ++ ',' ::
    (fmtDouble h.rangeMax ++ ',' :: '\n' ::
      h.counts.foldr (fun c acc => decChars c ++ ',' :: acc) ['\n']))

/-- Read `n` comma-terminated `size_t` fields (into fresh
zero-initialized locals of the modelled histogram reader). -/
def readCounts : Nat → List Char → Except ParseError (List Nat × List Char)
  | 0, s => .ok ([], s)
  | n + 1, s =>
    match GetNextCsvN 0 s with
    | .error e => .error e
    | .ok (c, r) =>
      match readCounts n r with
      | .error e => .error e
      | .ok (cs, r2) => .ok (c :: cs, r2)

/-- Modelled from the spec: `Histogram::FromCsv` reads back what
`Histogram::ToCsv` wrote - `numBins`, the two range bounds, a line
separator, then `numBins` counts - using the strict field readers of
`CsvUtils.hh`, and per section 7 of the design it applies the decoded
configuration and counts only after the whole section parsed
(all-or-nothing on failure).  Its destinations are its own fresh
locals, taken as zero-initialized; no claim depends on their prior
values. -/
def Histogram.FromCsv (s : List Char) : Except ParseError (Histogram × List Char) :=
  match GetNextCsvN 0 s with
  | .error e => .error e
  | .ok (nb, s1) =>
    match GetNextCsvD 0 s1 with
    | .error e => .error e
    | .ok (lo, s2) =>
      match GetNextCsvD 0 s2 with
      | .error e => .error e
      | .ok (hi, s3) =>
        match GetNewLine s3 with
        | .error e => .error e
        | .ok s4 =>
          match readCounts nb s4 with
          | .error e => .error e
          | .ok (cs, s5) => .ok (⟨nb, lo, hi, cs⟩, s5)

/-- Modelled from the spec: the streaming statistics accumulator
(ignition::math `SignalStats` is an external dependency, not among the
sources under review).  Section 4.2 of the design: count, min and max
updated directly, mean and variance by Welford's online method with the
population-variance convention. -/
structure SignalStats where
  count : Nat
  mean : ℚ
  m2 : ℚ
  min : ℚ
  max : ℚ
deriving DecidableEq

/-- Empty statistics state. -/
def SignalStats.init : SignalStats := ⟨0, 0, 0, 0, 0⟩

/-- Modelled from the spec: one Welford update; never rejects a value. -/
def SignalStats.InsertData (s : SignalStats) (x : ℚ) : SignalStats :=
  let c := s.count + 1
  let delta := x - s.mean
  let mean := s.mean + delta / (c : ℚ)
  { count := c
    mean := mean
    m2 := s.m2 + delta * (x - mean)
    min := if s.count = 0 then x else Min.min s.min x
    max := if s.count = 0 then x else Max.max s.max x }

/-- Reported population variance (`0` for the empty state). -/
def SignalStats.var (s : SignalStats) : ℚ :=
  if s.count = 0 then 0 else s.m2 / (s.count : ℚ)

/-- Modelled from the spec: `Reset` returns to the empty state. -/
def SignalStats.Reset (_ : SignalStats) : SignalStats := SignalStats.init

/-- A saved session: the arguments `ToCsv` is called with in `main.cc`
line 344 (last sim and real time, the statistics values, the histogram). -/
structure Snapshot where
  simTime : ℚ
  realTime : ℚ
  count : Nat
  mean : ℚ
  var : ℚ
  min : ℚ
  max : ℚ
  hist : Histogram
deriving DecidableEq

/-- The `ToCsv` of `main.cc` lines 56-64: two comma-terminated header lines
(`simTime,realTime,` and `count,mean,var,min,max,`) followed by the
histogram section. -/
def ToCsv (s : Snapshot) : List Char :=
  fmtDouble s.simTime ++ ',' :: (fmtDouble s.realTime ++ ',' :: '\n' ::
    (decChars s.count ++ ',' :: (fmtDouble s.mean ++ ',' :: (fmtDouble s.var ++ ',' ::
      (fmtDouble s.min ++ ',' :: (fmtDouble s.max ++ ',' :: '\n' ::
        Histogram.ToCsv s.hist))))))

/-- The `LoadedData` struct of `main.cc` lines 66-76. -/
structure LoadedData where
  count : Nat
  mean : ℚ
  var : ℚ
  max : ℚ
  min : ℚ
  realTime : ℚ
  simTime : ℚ
deriving DecidableEq

/-- The header phase of `FromCsv` (`main.cc` lines 85-94): the fields of
the first two lines in source order; the histogram is not touched yet.
The local `LoadedData data;` of `main.cc` line 85 is
default-initialized, so its members hold indeterminate values before
the reads; the parameter `d0` stands for those initial contents, and
each `GetNextCsv` call receives the corresponding member as the prior
value of its destination. -/
def FromCsvHeader (d0 : LoadedData) (s : List Char) : Except ParseError (LoadedData × List Char) :=
  match GetNextCsvD d0.simTime s with
  | .error e => .error e
  | .ok (simT, s1) =>
    match GetNextCsvD d0.realTime s1 with
    | .error e => .error e
    | .ok (realT, s2) =>
      match GetNewLine s2 with
      | .error e => .error e
      | .ok s3 =>
        match GetNextCsvN d0.count s3 with
        | .error e => .error e
        | .ok (cnt, s4) =>
          match GetNextCsvD d0.mean s4 with
          | .error e => .error e
          | .ok (mean, s5) =>
            match GetNextCsvD d0.var s5 with
            | .error e => .error e
            | .ok (varr, s6) =>
              match GetNextCsvD d0.min s6 with
              | .error e => .error e
              | .ok (mn, s7) =>
                match GetNextCsvD d0.max s7 with
                | .error e => .error e
                | .ok (mx, s8) =>
                  match GetNewLine s8 with
                  | .error e => .error e
                  | .ok s9 => .ok (⟨cnt, mean, varr, mx, mn, realT, simT⟩, s9)

/-- The `FromCsv` of `main.cc` lines 79-106: header fields, then
`hist.FromCsv` on the histogram passed by reference, then the drain loop
that extracts and echoes every remaining token, then
`IGN_IMGUI_CHECK_STREAM(ist, eof)`.  The returned histogram component
models the by-reference argument (prior value kept on failure before the
histogram assignment); `d0` stands for the indeterminate initial
contents of the default-initialized `LoadedData data;` local. -/
def FromCsv (s : List Char) (h0 : Histogram) (d0 : LoadedData) :
    Except ParseError LoadedData × Histogram :=
  match FromCsvHeader d0 s with
  | .error e => (.error e, h0)
  | .ok (d, s1) =>
    match Histogram.FromCsv s1 with
    | .error e => (.error e, h0)
    | .ok (h1, s2) =>
      if drainEof (s2.length + 1) s2 then (.ok d, h1) else (.error .fail, h1)

theorem decExp_bounds {x : ℚ} (hx : 0 < x) :
    (10 : ℚ) ^ decExp x ≤ x ∧ x < (10 : ℚ) ^ (decExp x + 1) := by
  have hnum : 0 < x.num := Rat.num_pos.mpr hx
  set p := x.num.toNat with hp
  set q := x.den with hq
  have hp1 : 1 ≤ p := by omega
  have hq1 : 1 ≤ q := x.pos
  set k := log10F q q + 1 with hk
  have hqk : q < 10 ^ k := (log10F_bounds q q hq1 le_rfl).2
  set N := p * 10 ^ k / q with hN
  have hN1 : 1 ≤ N := by
    rw [hN, Nat.le_div_iff_mul_le (by omega : 0 < q)]
    calc 1 * q = q := one_mul q
    _ ≤ 10 ^ k := le_of_lt hqk
    _ = 1 * 10 ^ k := (one_mul _).symm
    _ ≤ p * 10 ^ k := Nat.mul_le_mul_right _ hp1
  obtain ⟨hNl, hNh⟩ := log10F_bounds N N hN1 le_rfl
  set L := log10F N N with hL
  have hqQ : (0 : ℚ) < (q : ℚ) := by exact_mod_cast hq1
  have hxpq : x * (10 : ℚ) ^ k = ((p * 10 ^ k : ℕ) : ℚ) / (q : ℚ) := by
    have hxv : x = (p : ℚ) / (q : ℚ) := by
      rw [hp, hq]
      have hcst : ((x.num.toNat : ℕ) : ℚ) = ((x.num : ℤ) : ℚ) := by
        exact_mod_cast congrArg (fun z : ℤ => (z : ℚ)) (Int.toNat_of_nonneg (le_of_lt hnum))
      rw [hcst]
      exact (Rat.num_div_den x).symm
    rw [hxv]
    push_cast
    field_simp
  have hup : x * (10 : ℚ) ^ k < (N : ℚ) + 1 := by
    have hnat : p * 10 ^ k < (N + 1) * q := by
      have hdm : q * N + (p * 10 ^ k) % q = p * 10 ^ k := by
        rw [hN]; exact Nat.div_add_mod _ _
      have hml : (p * 10 ^ k) % q < q := Nat.mod_lt _ (by omega)
      have hexp : (N + 1) * q = q * N + q := by ring
      omega
    rw [hxpq, div_lt_iff hqQ]
    exact_mod_cast hnat
  have hlow : (N : ℚ) ≤ x * (10 : ℚ) ^ k := by
    rw [hxpq]
    exact_mod_cast Nat.cast_div_le
  have hcastpow : ∀ j : ℕ, ((10 ^ j : ℕ) : ℚ) = (10 : ℚ) ^ (j : ℤ) := by
    intro j
    rw [zpow_natCast]
    push_cast
    ring
  have hLl : (10 : ℚ) ^ (L : ℤ) ≤ x * (10 : ℚ) ^ k := by
    calc (10 : ℚ) ^ (L : ℤ) = ((10 ^ L : ℕ) : ℚ) := (hcastpow L).symm
    _ ≤ (N : ℚ) := by exact_mod_cast hNl
    _ ≤ x * (10 : ℚ) ^ k := hlow
  have hLh : x * (10 : ℚ) ^ k < (10 : ℚ) ^ ((L : ℤ) + 1) := by
    calc x * (10 : ℚ) ^ k < (N : ℚ) + 1 := hup
    _ ≤ ((10 ^ (L + 1) : ℕ) : ℚ) := by exact_mod_cast hNh
    _ = (10 : ℚ) ^ ((L : ℤ) + 1) := by
      rw [hcastpow (L + 1)]
      congr 1
  have hde : decExp x = (L : ℤ) - (k : ℤ) := rfl
  have h10 : (10 : ℚ) ≠ 0 := by norm_num
  have hkpos : (0 : ℚ) < (10 : ℚ) ^ (k : ℤ) := zpow_pos (by norm_num) _
  have hzk : (10 : ℚ) ^ (k : ℤ) = (10 : ℚ) ^ k := zpow_natCast 10 k
  constructor
  · rw [hde, zpow_sub₀ h10, div_le_iff hkpos, hzk]
    exact hLl
  · rw [hde]
    have he : (L : ℤ) - (k : ℤ) + 1 = ((L : ℤ) + 1) - (k : ℤ) := by ring
    rw [he, zpow_sub₀ h10, lt_div_iff hkpos, hzk]
    exact hLh

theorem decExp_uniq {x : ℚ} (hx : 0 < x) {e : ℤ}
    (h1 : (10 : ℚ) ^ e ≤ x) (h2 : x < (10 : ℚ) ^ (e + 1)) : decExp x = e := by
  obtain ⟨b1, b2⟩ := decExp_bounds hx
  by_contra hne
  rcases lt_or_gt_of_ne hne with hlt | hgt
  · have hle : (10 : ℚ) ^ (decExp x + 1) ≤ (10 : ℚ) ^ e :=
      zpow_le_zpow_right₀ (by norm_num) (by omega)
    linarith
  · have hle : (10 : ℚ) ^ (e + 1) ≤ (10 : ℚ) ^ decExp x :=
      zpow_le_zpow_right₀ (by norm_num) (by omega)
    linarith

theorem norm6_sig {m : ℕ} {e : ℤ} (h1 : 10 ^ 5 ≤ m) (h2 : m < 10 ^ 6) :
    norm6 ((m : ℚ) * (10 : ℚ) ^ (e - 5)) = (m, e) := by
  have h10 : (10 : ℚ) ≠ 0 := by norm_num
  set x := (m : ℚ) * (10 : ℚ) ^ (e - 5) with hxv
  have hm0 : (0 : ℚ) < (m : ℚ) := by
    have : 0 < m := by omega
    exact_mod_cast this
  have hxpos : 0 < x := mul_pos hm0 (zpow_pos (by norm_num) _)
  have hde : decExp x = e := by
    apply decExp_uniq hxpos
    · have hcomp : (10 : ℚ) ^ e = (10 : ℚ) ^ (5 : ℤ) * (10 : ℚ) ^ (e - 5) := by
        rw [← zpow_add₀ h10]
        congr 1
        ring
      rw [hcomp, hxv]
      have hml : (10 : ℚ) ^ (5 : ℤ) ≤ (m : ℚ) := by
        have : ((10 ^ 5 : ℕ) : ℚ) ≤ (m : ℚ) := by exact_mod_cast h1
        calc (10 : ℚ) ^ (5 : ℤ) = ((10 ^ 5 : ℕ) : ℚ) := by norm_num
        _ ≤ (m : ℚ) := this
      exact mul_le_mul_of_nonneg_right hml (le_of_lt (zpow_pos (by norm_num) _))
    · have hcomp : (10 : ℚ) ^ (e + 1) = (10 : ℚ) ^ (6 : ℤ) * (10 : ℚ) ^ (e - 5) := by
        rw [← zpow_add₀ h10]
        congr 1
        ring
      rw [hcomp, hxv]
      have hml : (m : ℚ) < (10 : ℚ) ^ (6 : ℤ) := by
        have : (m : ℚ) < ((10 ^ 6 : ℕ) : ℚ) := by exact_mod_cast h2
        calc (m : ℚ) < ((10 ^ 6 : ℕ) : ℚ) := this
        _ = (10 : ℚ) ^ (6 : ℤ) := by norm_num
      exact mul_lt_mul_of_pos_right hml (zpow_pos (by norm_num) _)
  have hxm : x * (10 : ℚ) ^ ((5 : ℤ) - e) = (m : ℚ) := by
    rw [hxv, mul_assoc, ← zpow_add₀ h10]
    norm_num
  have hfl : ⌊x * (10 : ℚ) ^ ((5 : ℤ) - e) + 1 / 2⌋ = (m : ℤ) := by
    rw [hxm]
    have hcast : (m : ℚ) + 1 / 2 = 1 / 2 + ((m : ℤ) : ℚ) := by push_cast; ring
    rw [hcast, Int.floor_add_int]
    norm_num
  have htn : ((m : ℤ)).toNat = m := Int.toNat_natCast m
  have hne6 : ¬ m = 10 ^ 6 := by omega
  simp only [norm6]
  rw [hde, hfl, htn, if_neg hne6]

/-- The head of a remainder list is not a digit (or it is empty), so a
maximal digit run stops exactly there. -/
def HeadNotDigit : List Char → Prop
  | [] => True
  | c :: _ => isDigit c = false

theorem isDigit_ne_of {c d : Char} (h : isDigit c = true) (hd : isDigit d = false) :
    c ≠ d := by
  intro he
  rw [he, hd] at h
  cases h

theorem takeWhile_digits_append {D r : List Char}
    (hD : ∀ c ∈ D, isDigit c = true) (hr : HeadNotDigit r) :
    (D ++ r).takeWhile isDigit = D := by
  induction D with
  | nil =>
    cases r with
    | nil => rfl
    | cons c t =>
      simp only [HeadNotDigit] at hr
      simp [List.takeWhile_cons, hr]
  | cons c D ih =>
    have hc : isDigit c = true := hD c (List.mem_cons_self c D)
    simp only [List.cons_append, List.takeWhile_cons, hc, if_true]
    rw [ih (fun d hd => hD d (List.mem_cons_of_mem c hd))]

theorem dropWhile_digits_append {D r : List Char}
    (hD : ∀ c ∈ D, isDigit c = true) (hr : HeadNotDigit r) :
    (D ++ r).dropWhile isDigit = r := by
  induction D with
  | nil =>
    cases r with
    | nil => rfl
    | cons c t =>
      simp only [HeadNotDigit] at hr
      simp [List.dropWhile_cons, hr]
  | cons c D ih =>
    have hc : isDigit c = true := hD c (List.mem_cons_self c D)
    simp only [List.cons_append, List.dropWhile_cons, hc, if_pos]
    exact ih (fun d hd => hD d (List.mem_cons_of_mem c hd))

theorem splitDigits_append {D r : List Char}
    (hD : ∀ c ∈ D, isDigit c = true) (hr : HeadNotDigit r) :
    splitDigits (D ++ r) = (D, r) := by
  unfold splitDigits
  rw [takeWhile_digits_append hD hr, dropWhile_digits_append hD hr]

theorem dropWhile_ws_cons {c : Char} {t : List Char} (h : isWs c = false) :
    (c :: t).dropWhile isWs = c :: t := by
  simp [List.dropWhile_cons, h]

theorem splitSign_not_sign {c : Char} {t : List Char} (h1 : c ≠ '-') (h2 : c ≠ '+') :
    splitSign (c :: t) = (false, c :: t) := by
  simp [splitSign, h1, h2]

theorem parseAfterMant_nil {I F : List Char} (hIF : ¬(I = [] ∧ F = [])) :
    parseAfterMant false I F [] = (some (mantissaVal false I F), []) := by
  simp [parseAfterMant, hIF]

theorem expChars_digits_tail (e : ℤ) :
    ∃ P : List Char, expChars e = 'e' :: (if e < 0 then '-' else '+') :: P ∧
      (∀ c ∈ P, isDigit c = true) ∧ P ≠ [] ∧ foldDigits P = e.natAbs := by
  unfold expChars
  by_cases hlen : (decChars e.natAbs).length < 2
  · refine ⟨'0' :: decChars e.natAbs, by simp [hlen], ?_, by simp, ?_⟩
    · intro c hc
      rcases List.mem_cons.mp hc with hc | hc
      · subst hc; decide
      · exact decChars_digits _ c hc
    · rw [foldDigits_cons_zero, foldDigits_decChars]
  · refine ⟨decChars e.natAbs, by simp [hlen], decChars_digits _, decChars_ne_nil _, foldDigits_decChars _⟩

theorem parseAfterMant_expChars {I F : List Char} (hIF : ¬(I = [] ∧ F = [])) (e : ℤ) :
    parseAfterMant false I F (expChars e) =
      (some (mantissaVal false I F * (10 : ℚ) ^ e), []) := by
  obtain ⟨P, hPe, hPd, hPne, hPf⟩ := expChars_digits_tail e
  rw [hPe]
  have hsd : splitDigits (P ++ []) = (P, []) := splitDigits_append hPd trivial
  rw [List.append_nil] at hsd
  by_cases he : e < 0
  · have hss : splitSign ('-' :: P) = (true, P) := by simp [splitSign]
    have hev : expVal true P = e := by
      have hna : (e.natAbs : ℤ) = -e := by omega
      unfold expVal
      rw [hPf, hna]
      norm_num
    simp only [parseAfterMant, if_neg hIF, if_pos he, List.head?_cons, List.tail_cons,
      true_or, if_true, hss, hsd, if_neg hPne, hev]
  · have hss : splitSign ('+' :: P) = (false, P) := by simp [splitSign]
    have hev : expVal false P = e := by
      have hna : (e.natAbs : ℤ) = e := by omega
      unfold expVal
      rw [hPf, hna]
      norm_num
    simp only [parseAfterMant, if_neg hIF, if_neg he, List.head?_cons, List.tail_cons,
      true_or, if_true, hss, hsd, if_neg hPne, hev]

theorem parseDouble_noDot {D tail : List Char}
    (hD : ∀ c ∈ D, isDigit c = true) (hne : D ≠ [])
    (htl : HeadNotDigit tail) (hdot : ¬ tail.head? = some '.') :
    parseDouble (D ++ tail) = parseAfterMant false D [] tail := by
  obtain ⟨c, D1, rfl⟩ : ∃ c D1, D = c :: D1 := by
    cases D with
    | nil => exact absurd rfl hne
    | cons c D1 => exact ⟨c, D1, rfl⟩
  have hc : isDigit c = true := hD c (List.mem_cons_self _ _)
  have h1 : (c :: (D1 ++ tail)).dropWhile isWs = c :: (D1 ++ tail) :=
    dropWhile_ws_cons (isDigit_not_ws hc)
  have h2 : splitSign (c :: (D1 ++ tail)) = (false, c :: (D1 ++ tail)) :=
    splitSign_not_sign (isDigit_ne_of hc (by decide)) (isDigit_ne_of hc (by decide))
  have h3 : splitDigits (c :: (D1 ++ tail)) = (c :: D1, tail) := by
    rw [← List.cons_append]
    exact splitDigits_append hD htl
  simp only [parseDouble, List.cons_append, h1, h2, h3]
  rw [if_neg hdot]

theorem parseDouble_dot {D1 D2 tail : List Char}
    (hD1 : ∀ c ∈ D1, isDigit c = true) (hne : D1 ≠ [])
    (hD2 : ∀ c ∈ D2, isDigit c = true)
    (htl : HeadNotDigit tail) :
    parseDouble (D1 ++ '.' :: (D2 ++ tail)) = parseAfterMant false D1 D2 tail := by
  obtain ⟨c, E, rfl⟩ : ∃ c E, D1 = c :: E := by
    cases D1 with
    | nil => exact absurd rfl hne
    | cons c E => exact ⟨c, E, rfl⟩
  have hc : isDigit c = true := hD1 c (List.mem_cons_self _ _)
  have h1 : (c :: (E ++ '.' :: (D2 ++ tail))).dropWhile isWs =
      c :: (E ++ '.' :: (D2 ++ tail)) := dropWhile_ws_cons (isDigit_not_ws hc)
  have h2 : splitSign (c :: (E ++ '.' :: (D2 ++ tail))) =
      (false, c :: (E ++ '.' :: (D2 ++ tail))) :=
    splitSign_not_sign (isDigit_ne_of hc (by decide)) (isDigit_ne_of hc (by decide))
  have h3 : splitDigits (c :: (E ++ '.' :: (D2 ++ tail))) =
      (c :: E, '.' :: (D2 ++ tail)) := by
    rw [← List.cons_append]
    refine splitDigits_append hD1 ?_
    show isDigit '.' = false
    decide
  have h4 : splitDigits (D2 ++ tail) = (D2, tail) := splitDigits_append hD2 htl
  simp only [parseDouble, List.cons_append, h1, h2, h3, List.head?_cons, List.tail_cons,
    if_true, h4]

theorem stripZeros_decomp (R : List Char) :
    ∃ z, R = stripZeros R ++ List.replicate z '0' ∧
      (stripZeros R).length + z = R.length := by
  have hsplit : R.reverse.takeWhile (fun c => c = '0') ++
      R.reverse.dropWhile (fun c => c = '0') = R.reverse :=
    List.takeWhile_append_dropWhile _ _
  have hTall : ∀ c ∈ R.reverse.takeWhile (fun c => c = '0'), c = '0' := by
    intro c hc
    have := List.mem_takeWhile_imp hc
    simpa using this
  have hTrep : R.reverse.takeWhile (fun c => c = '0') =
      List.replicate (R.reverse.takeWhile (fun c => c = '0')).length '0' :=
    List.eq_replicate_of_mem hTall
  refine ⟨(R.reverse.takeWhile (fun c => c = '0')).length, ?_, ?_⟩
  · unfold stripZeros
    calc R = R.reverse.reverse := (List.reverse_reverse R).symm
    _ = (R.reverse.takeWhile (fun c => c = '0') ++
          R.reverse.dropWhile (fun c => c = '0')).reverse := by rw [hsplit]
    _ = (R.reverse.dropWhile (fun c => c = '0')).reverse ++
          (R.reverse.takeWhile (fun c => c = '0')).reverse := List.reverse_append _ _
    _ = (R.reverse.dropWhile (fun c => c = '0')).reverse ++
          List.replicate (R.reverse.takeWhile (fun c => c = '0')).length '0' := by
        rw [← List.reverse_replicate, ← hTrep]
  · unfold stripZeros
    have hlen := congrArg List.length hsplit
    simp only [List.length_append, List.length_reverse] at hlen ⊢
    omega

theorem fmt_sig_decomp {m : ℕ} (h1 : 10 ^ 5 ≤ m) (h2 : m < 10 ^ 6) :
    ∃ z, decChars m = stripZeros (decChars m) ++ List.replicate z '0' ∧
      (∀ c ∈ stripZeros (decChars m), isDigit c = true) ∧
      stripZeros (decChars m) ≠ [] ∧
      foldDigits (stripZeros (decChars m)) * 10 ^ z = m ∧
      (stripZeros (decChars m)).length + z = 6 := by
  obtain ⟨z, hz, hlen⟩ := stripZeros_decomp (decChars m)
  have hlen6 : (decChars m).length = 6 := decChars_length_six h1 h2
  have hfold : foldDigits (stripZeros (decChars m)) * 10 ^ z = m := by
    have := foldDigits_decChars m
    rw [hz, foldDigits_append, foldDigits_replicate_zero, List.length_replicate] at this
    omega
  refine ⟨z, hz, ?_, ?_, hfold, by omega⟩
  · intro c hc
    exact decChars_digits m c (by rw [hz]; exact List.mem_append_left _ hc)
  · intro hnil
    rw [hnil] at hfold
    have : foldDigits ([] : List Char) = 0 := rfl
    rw [this] at hfold
    have hm0 : (0:Nat) < 10 ^ 5 := by norm_num
    omega

theorem mantissa_div {I F : List Char} {f : ℕ}
    (hf : foldDigits I * 10 ^ F.length + foldDigits F = f) :
    mantissaVal false I F = (f : ℚ) / (10 : ℚ) ^ F.length := by
  unfold mantissaVal
  rw [← hf]
  have hpow : (0:ℚ) < (10:ℚ) ^ F.length := by positivity
  push_cast
  field_simp

theorem cast_pow10 (j : ℕ) : ((10 ^ j : ℕ) : ℚ) = (10 : ℚ) ^ (j : ℤ) := by
  rw [zpow_natCast]
  push_cast
  ring

theorem qval_eq {f z m : ℕ} {e A : ℤ} (hm : f * 10 ^ z = m)
    (hA : A = (z : ℤ) + (e - 5)) :
    (f : ℚ) * (10 : ℚ) ^ A = (m : ℚ) * (10 : ℚ) ^ (e - 5) := by
  subst hA
  rw [zpow_add₀ (by norm_num : (10:ℚ) ≠ 0)]
  have hcast : (m : ℚ) = (f : ℚ) * (10 : ℚ) ^ (z : ℤ) := by
    rw [← hm]
    push_cast [zpow_natCast]
    ring
  rw [hcast]
  ring

theorem div_pow_mul (f w : ℕ) (a : ℤ) :
    (f : ℚ) / (10 : ℚ) ^ w * (10 : ℚ) ^ a = (f : ℚ) * (10 : ℚ) ^ (a - (w : ℤ)) := by
  rw [zpow_sub₀ (by norm_num : (10:ℚ) ≠ 0), ← zpow_natCast (10:ℚ) w]
  have hpow : (10:ℚ) ^ (w : ℤ) ≠ 0 := by
    apply zpow_ne_zero
    norm_num
  field_simp

theorem div_pow_eq (f w : ℕ) :
    (f : ℚ) / (10 : ℚ) ^ w = (f : ℚ) * (10 : ℚ) ^ (0 - (w : ℤ)) := by
  rw [← div_pow_mul f w 0]
  rw [zpow_zero]
  ring

/-- Real values that the default-precision encoder prints exactly: zero,
or a positive decimal with at most six significant digits. -/
def Sig6 (x : ℚ) : Prop :=
  x = 0 ∨ ∃ m : ℕ, ∃ e : ℤ, 10 ^ 5 ≤ m ∧ m < 10 ^ 6 ∧ x = (m : ℚ) * (10 : ℚ) ^ (e - 5)

theorem mantissaVal_int (I : List Char) :
    mantissaVal false I [] = (foldDigits I : ℚ) := by
  unfold mantissaVal
  have h0 : foldDigits ([] : List Char) = 0 := rfl
  simp [h0]

theorem expChars_head_not_digit (e : ℤ) : HeadNotDigit (expChars e) := by
  unfold expChars
  show isDigit 'e' = false
  decide

theorem expChars_head_not_dot (e : ℤ) : ¬ (expChars e).head? = some '.' := by
  unfold expChars
  simp

theorem parseDouble_fmt {x : ℚ} (hx : Sig6 x) :
    parseDouble (fmtDouble x) = (some x, []) := by
  rcases hx with rfl | ⟨m, e, h1, h2, rfl⟩
  · with_unfolding_all rfl
  · have hm0 : (0 : ℚ) < (m : ℚ) := by
      have : 0 < m := by omega
      exact_mod_cast this
    have hxpos : 0 < (m : ℚ) * (10 : ℚ) ^ (e - 5) :=
      mul_pos hm0 (zpow_pos (by norm_num) _)
    have hne0 : ¬ (m : ℚ) * (10 : ℚ) ^ (e - 5) = 0 := ne_of_gt hxpos
    have hnlt : ¬ (m : ℚ) * (10 : ℚ) ^ (e - 5) < 0 := not_lt_of_gt hxpos
    have hfmt : fmtDouble ((m : ℚ) * (10 : ℚ) ^ (e - 5)) =
        render6 (stripZeros (decChars m)) e := by
      have habs : |(m : ℚ) * (10 : ℚ) ^ (e - 5)| = (m : ℚ) * (10 : ℚ) ^ (e - 5) :=
        abs_of_pos hxpos
      simp only [fmtDouble, if_neg hne0, if_neg hnlt, habs, norm6_sig h1 h2]
      simp
    rw [hfmt]
    obtain ⟨z, hz, hDd, hDne, hf, hlen⟩ := fmt_sig_decomp h1 h2
    set D := stripZeros (decChars m) with hDdef
    clear_value D
    by_cases hsci : e < -4 ∨ 6 ≤ e
    · -- scientific notation
      cases hDc : D with
      | nil => exact absurd hDc hDne
      | cons d rest =>
        subst hDc
        have hd1 : ∀ c ∈ [d], isDigit c = true := by
          intro c hc
          rw [List.mem_singleton.mp hc]
          exact hDd d (List.mem_cons_self _ _)
        cases hrc : rest with
        | nil =>
          subst hrc
          have hren : render6 [d] e = [d] ++ expChars e := by
            rw [render6.eq_def, if_pos hsci]
          rw [hren]
          rw [parseDouble_noDot hd1 (by simp)
            (expChars_head_not_digit e) (expChars_head_not_dot e)]
          rw [parseAfterMant_expChars (by simp) e]
          rw [mantissaVal_int]
          have hval : (foldDigits [d] : ℚ) * (10 : ℚ) ^ e =
              (m : ℚ) * (10 : ℚ) ^ (e - 5) := by
            apply qval_eq hf
            have hk : ([d] : List Char).length + z = 6 := hlen
            simp only [List.length_singleton] at hk
            omega
          rw [hval]
        | cons r1 rest2 =>
          subst hrc
          have hren : render6 (d :: r1 :: rest2) e =
              [d] ++ '.' :: ((r1 :: rest2) ++ expChars e) := by
            rw [render6.eq_def, if_pos hsci]
            simp
          rw [hren]
          have hrd : ∀ c ∈ r1 :: rest2, isDigit c = true := by
            intro c hc
            exact hDd c (List.mem_cons_of_mem d hc)
          rw [parseDouble_dot hd1 (by simp) hrd (expChars_head_not_digit e)]
          rw [parseAfterMant_expChars (by simp) e]
          have hfd : foldDigits [d] * 10 ^ (r1 :: rest2).length +
              foldDigits (r1 :: rest2) = foldDigits (d :: r1 :: rest2) := by
            have h := foldDigits_append [d] (r1 :: rest2)
            rw [← h]
            rfl
          rw [mantissa_div hfd, div_pow_mul]
          have hval : (foldDigits (d :: r1 :: rest2) : ℚ) *
              (10 : ℚ) ^ (e - ((r1 :: rest2).length : ℤ)) =
              (m : ℚ) * (10 : ℚ) ^ (e - 5) := by
            apply qval_eq hf
            have hk : (d :: r1 :: rest2).length + z = 6 := hlen
            simp only [List.length_cons] at hk ⊢
            omega
          rw [hval]
    · -- fixed notation
      by_cases heneg : e < 0
      · -- leading "0." and padding zeros
        have hren : render6 D e =
            ['0'] ++ '.' :: ((List.replicate (e.natAbs - 1) '0' ++ D) ++ []) := by
          rw [render6.eq_def, if_neg hsci, if_pos heneg]
          simp
        rw [hren]
        have h01 : ∀ c ∈ ['0'], isDigit c = true := by
          intro c hc
          rw [List.mem_singleton.mp hc]
          decide
        have hD2d : ∀ c ∈ List.replicate (e.natAbs - 1) '0' ++ D, isDigit c = true := by
          intro c hc
          rcases List.mem_append.mp hc with hc | hc
          · rw [List.eq_of_mem_replicate hc]; decide
          · exact hDd c hc
        rw [parseDouble_dot h01 (by simp) hD2d (show HeadNotDigit [] from trivial)]
        rw [parseAfterMant_nil (by simp)]
        have hfd : foldDigits ['0'] * 10 ^ (List.replicate (e.natAbs - 1) '0' ++ D).length +
            foldDigits (List.replicate (e.natAbs - 1) '0' ++ D) = foldDigits D := by
          have h0 : foldDigits ['0'] = 0 := by decide
          rw [h0, foldDigits_append, foldDigits_replicate_zero]
          simp
        rw [mantissa_div hfd, div_pow_eq]
        have hval : (foldDigits D : ℚ) *
            (10 : ℚ) ^ ((0 : ℤ) - ((List.replicate (e.natAbs - 1) '0' ++ D).length : ℤ)) =
            (m : ℚ) * (10 : ℚ) ^ (e - 5) := by
          apply qval_eq hf
          have hlrep : (List.replicate (e.natAbs - 1) '0' ++ D).length =
              (e.natAbs - 1) + D.length := by simp
          have hk6 : D.length + z = 6 := hlen
          have hna : e.natAbs = (-e).toNat := by omega
          rw [hlrep]
          omega
        rw [hval]
      · -- no leading zeros
        by_cases hint : D.length ≤ e.toNat + 1
        · -- integer rendering: D padded with zeros
          have hren : render6 D e = D ++ List.replicate (e.toNat + 1 - D.length) '0' := by
            rw [render6.eq_def, if_neg hsci, if_neg heneg, if_pos hint]
          rw [hren]
          have hallD : ∀ c ∈ D ++ List.replicate (e.toNat + 1 - D.length) '0',
              isDigit c = true := by
            intro c hc
            rcases List.mem_append.mp hc with hc | hc
            · exact hDd c hc
            · rw [List.eq_of_mem_replicate hc]; decide
          have hallne : D ++ List.replicate (e.toNat + 1 - D.length) '0' ≠ [] := by
            intro hnil
            exact hDne (List.append_eq_nil.mp hnil).1
          have hnodot : ¬ ([] : List Char).head? = some '.' := by simp
          have hshape := parseDouble_noDot hallD hallne (show HeadNotDigit [] from trivial) hnodot
          rw [List.append_nil] at hshape
          rw [hshape, parseAfterMant_nil (by simp [hallne])]
          rw [mantissaVal_int]
          have hfall : foldDigits (D ++ List.replicate (e.toNat + 1 - D.length) '0') =
              foldDigits D * 10 ^ (e.toNat + 1 - D.length) := by
            rw [foldDigits_append, foldDigits_replicate_zero]
            simp
          rw [hfall]
          have hval : ((foldDigits D * 10 ^ (e.toNat + 1 - D.length) : ℕ) : ℚ) =
              (m : ℚ) * (10 : ℚ) ^ (e - 5) := by
            have hcast : ((foldDigits D * 10 ^ (e.toNat + 1 - D.length) : ℕ) : ℚ) =
                (foldDigits D : ℚ) * (10 : ℚ) ^ ((e.toNat + 1 - D.length : ℕ) : ℤ) := by
              push_cast [zpow_natCast]
              ring
            rw [hcast]
            apply qval_eq hf
            have hk6 : D.length + z = 6 := hlen
            omega
          rw [hval]
        · -- fraction rendering: point inside D
          have hren : render6 D e =
              D.take (e.toNat + 1) ++ '.' :: (D.drop (e.toNat + 1) ++ []) := by
            rw [render6.eq_def, if_neg hsci, if_neg heneg, if_neg hint]
            simp
          rw [hren]
          have htked : ∀ c ∈ D.take (e.toNat + 1), isDigit c = true :=
            fun c hc => hDd c (List.take_subset _ _ hc)
          have hdrd : ∀ c ∈ D.drop (e.toNat + 1), isDigit c = true :=
            fun c hc => hDd c (List.drop_subset _ _ hc)
          have htkne : D.take (e.toNat + 1) ≠ [] := by
            intro hnil
            have hl := congrArg List.length hnil
            simp only [List.length_take, List.length_nil] at hl
            omega
          rw [parseDouble_dot htked htkne hdrd (show HeadNotDigit [] from trivial)]
          rw [parseAfterMant_nil (by simp [htkne])]
          have hfd : foldDigits (D.take (e.toNat + 1)) * 10 ^ (D.drop (e.toNat + 1)).length +
              foldDigits (D.drop (e.toNat + 1)) = foldDigits D := by
            conv_rhs => rw [← List.take_append_drop (e.toNat + 1) D]
            rw [foldDigits_append]
          rw [mantissa_div hfd, div_pow_eq]
          have hval : (foldDigits D : ℚ) *
              (10 : ℚ) ^ ((0 : ℤ) - ((D.drop (e.toNat + 1)).length : ℤ)) =
              (m : ℚ) * (10 : ℚ) ^ (e - 5) := by
            apply qval_eq hf
            have hdl : (D.drop (e.toNat + 1)).length = D.length - (e.toNat + 1) := by
              simp
            have hk6 : D.length + z = 6 := hlen
            rw [hdl]
            omega
          rw [hval]

theorem fmt_dropWs_ne {x : ℚ} (hx : Sig6 x) :
    ¬ (fmtDouble x).dropWhile isWs = [] := by
  intro h
  have hp := parseDouble_fmt hx
  have hnone : parseDouble (fmtDouble x) = (none, []) := by
    simp only [parseDouble, h]
    rfl
  rw [hnone] at hp
  simp at hp

theorem FieldD_fmt {x : ℚ} (hx : Sig6 x) (prev : ℚ) :
    FieldD prev (fmtDouble x) = .ok x := by
  unfold FieldD
  rw [if_neg (fmt_dropWs_ne hx), parseDouble_fmt hx]

theorem parseNat64_decChars {n : Nat} (hn : n < 2 ^ 64) :
    parseNat64 (decChars n) = (some n, []) := by
  obtain ⟨c, t, hct⟩ : ∃ c t, decChars n = c :: t := by
    cases h : decChars n with
    | nil => exact absurd h (decChars_ne_nil n)
    | cons c t => exact ⟨c, t, rfl⟩
  have hc : isDigit c = true :=
    decChars_digits n c (by rw [hct]; exact List.mem_cons_self _ _)
  have h1 : (decChars n).dropWhile isWs = decChars n := by
    rw [hct]
    exact dropWhile_ws_cons (isDigit_not_ws hc)
  have h2 : splitSign (decChars n) = (false, decChars n) := by
    rw [hct]
    exact splitSign_not_sign (isDigit_ne_of hc (by decide)) (isDigit_ne_of hc (by decide))
  have h3 : splitDigits (decChars n) = (decChars n, []) := by
    have h := splitDigits_append (decChars_digits n) (show HeadNotDigit [] from trivial)
    rwa [List.append_nil] at h
  simp only [parseNat64, h1, h2, h3]
  rw [if_neg (decChars_ne_nil n), foldDigits_decChars]
  rw [if_neg (by omega : ¬ 2 ^ 64 ≤ n)]
  simp

theorem dec_dropWs_ne (n : Nat) : ¬ (decChars n).dropWhile isWs = [] := by
  intro h
  obtain ⟨c, t, hct⟩ : ∃ c t, decChars n = c :: t := by
    cases hh : decChars n with
    | nil => exact absurd hh (decChars_ne_nil n)
    | cons c t => exact ⟨c, t, rfl⟩
  have hc : isDigit c = true :=
    decChars_digits n c (by rw [hct]; exact List.mem_cons_self _ _)
  rw [hct, dropWhile_ws_cons (isDigit_not_ws hc)] at h
  exact List.cons_ne_nil c t h

theorem FieldN_decChars {n : Nat} (hn : n < 2 ^ 64) (prev : Nat) :
    FieldN prev (decChars n) = .ok n := by
  unfold FieldN
  rw [if_neg (dec_dropWs_ne n), parseNat64_decChars hn]

theorem getField_append {F r : List Char} (hF : ∀ c ∈ F, c ≠ ',') :
    getField (F ++ ',' :: r) = .ok (F, r) := by
  induction F with
  | nil => simp [getField]
  | cons c F ih =>
    have hc : c ≠ ',' := hF c (List.mem_cons_self _ _)
    simp only [List.cons_append, getField, if_neg hc, List.append_eq]
    rw [ih (fun d hd => hF d (List.mem_cons_of_mem c hd))]

theorem GetNewLine_lf {A r : List Char} (hA : ∀ c ∈ A, isWs c = false) (hne : A ≠ []) :
    GetNewLine ('\n' :: (A ++ r)) = .ok (A ++ r) := by
  obtain ⟨a, A1, rfl⟩ : ∃ a A1, A = a :: A1 := by
    cases h : A with
    | nil => exact absurd h hne
    | cons a A1 => exact ⟨a, A1, rfl⟩
  have ha : isWs a = false := hA a (List.mem_cons_self _ _)
  have h1 : ('\n' :: (a :: A1 ++ r)).dropWhile isWs = a :: A1 ++ r := by
    rw [List.dropWhile_cons]
    have hnl : isWs '\n' = true := by decide
    rw [hnl]
    simp only [if_true]
    exact dropWhile_ws_cons ha
  simp only [GetNewLine, h1]
  simp

theorem len_dropWhile_le (p : Char → Bool) (l : List Char) :
    (l.dropWhile p).length ≤ l.length := by
  induction l with
  | nil => simp
  | cons a l ih =>
    rw [List.dropWhile_cons]
    by_cases hp : p a = true
    · rw [hp]
      simp only [if_true, List.length_cons]
      omega
    · rw [Bool.not_eq_true] at hp
      rw [hp]
      simp

theorem dropWhile_head_false {p : Char → Bool} (l : List Char) :
    ∀ {c : Char} {t : List Char}, l.dropWhile p = c :: t → p c = false := by
  induction l with
  | nil => intro c t h; cases h
  | cons a l ih =>
    intro c t h
    rw [List.dropWhile_cons] at h
    by_cases hp : p a = true
    · rw [hp] at h
      simp only [if_true] at h
      exact ih h
    · rw [Bool.not_eq_true] at hp
      rw [hp] at h
      simp only [Bool.false_eq_true, if_false] at h
      cases h
      exact hp

theorem drainEof_true : ∀ fuel s, s.length < fuel → drainEof fuel s = true := by
  intro fuel
  induction fuel with
  | zero => intro s h; omega
  | succ f ih =>
    intro s h
    show drainEof (f + 1) s = true
    by_cases h1 : s.dropWhile isWs = []
    · simp [drainEof, h1]
    · obtain ⟨c, t, hct⟩ : ∃ c t, s.dropWhile isWs = c :: t := by
        cases hd : s.dropWhile isWs with
        | nil => exact absurd hd h1
        | cons c t => exact ⟨c, t, rfl⟩
      have hcw : isWs c = false := dropWhile_head_false s hct
      by_cases h2 : (s.dropWhile isWs).dropWhile (fun c => !isWs c) = []
      · simp [drainEof, h1, h2]
      · have hred : drainEof (f + 1) s =
            drainEof f ((s.dropWhile isWs).dropWhile (fun c => !isWs c)) := by
          simp [drainEof, h1, h2]
        rw [hred]
        apply ih
        have hlen1 : (s.dropWhile isWs).length ≤ s.length :=
          len_dropWhile_le _ _
        have hlen2 : ((s.dropWhile isWs).dropWhile (fun c => !isWs c)).length < 
            (s.dropWhile isWs).length := by
          rw [hct, List.dropWhile_cons]
          have hbc : (!isWs c) = true := by rw [hcw]; rfl
          rw [hbc]
          simp only [if_true]
          calc (t.dropWhile (fun c => !isWs c)).length ≤ t.length :=
            len_dropWhile_le _ _
          _ < (c :: t).length := by simp
        omega

theorem expChars_chars (e : ℤ) :
    ∀ c ∈ expChars e, isDigit c = true ∨ c = 'e' ∨ c = '-' ∨ c = '+' := by
  intro c hc
  simp only [expChars] at hc
  rcases List.mem_cons.mp hc with rfl | hc
  · right; left; rfl
  · rcases List.mem_cons.mp hc with hce | hc
    · by_cases he : e < 0
      · rw [if_pos he] at hce
        right; right; left; exact hce
      · rw [if_neg he] at hce
        right; right; right; exact hce
    · by_cases hl : (decChars e.natAbs).length < 2
      · rw [if_pos hl] at hc
        rcases List.mem_cons.mp hc with rfl | hc
        · left; decide
        · left; exact decChars_digits _ c hc
      · rw [if_neg hl] at hc
        left; exact decChars_digits _ c hc

theorem mem_stripZeros {R : List Char} {c : Char} (hc : c ∈ stripZeros R) : c ∈ R := by
  unfold stripZeros at hc
  rw [List.mem_reverse] at hc
  have h2 := List.dropWhile_subset (l := R.reverse) (fun c => c = '0') hc
  rwa [List.mem_reverse] at h2

theorem render6_chars {D : List Char} (e : ℤ) (hD : ∀ c ∈ D, isDigit c = true) :
    ∀ c ∈ render6 D e, isDigit c = true ∨ c = '.' ∨ c = 'e' ∨ c = '-' ∨ c = '+' := by
  intro c hc
  rw [render6.eq_def] at hc
  by_cases hsci : e < -4 ∨ 6 ≤ e
  · rw [if_pos hsci] at hc
    rcases List.mem_append.mp hc with hc | hc
    · -- mantissa part, drawn from D and a dot
      cases D with
      | nil => cases hc
      | cons d rest =>
        cases rest with
        | nil =>
          rcases List.mem_singleton.mp hc with rfl
          left; exact hD c (List.mem_cons_self _ _)
        | cons r1 rest2 =>
          rcases List.mem_cons.mp hc with rfl | hc
          · left; exact hD c (List.mem_cons_self _ _)
          · rcases List.mem_cons.mp hc with rfl | hc
            · right; left; rfl
            · left; exact hD c (List.mem_cons_of_mem _ hc)
    · rcases expChars_chars e c hc with h | h | h | h
      · left; exact h
      · right; right; left; exact h
      · right; right; right; left; exact h
      · right; right; right; right; exact h
  · rw [if_neg hsci] at hc
    by_cases hneg : e < 0
    · rw [if_pos hneg] at hc
      rcases List.mem_cons.mp hc with rfl | hc
      · left; decide
      · rcases List.mem_cons.mp hc with rfl | hc
        · right; left; rfl
        · rcases List.mem_append.mp hc with hc | hc
          · left
            rw [List.eq_of_mem_replicate hc]
            decide
          · left; exact hD c hc
    · rw [if_neg hneg] at hc
      by_cases hint : D.length ≤ e.toNat + 1
      · rw [if_pos hint] at hc
        rcases List.mem_append.mp hc with hc | hc
        · left; exact hD c hc
        · left
          rw [List.eq_of_mem_replicate hc]
          decide
      · rw [if_neg hint] at hc
        rcases List.mem_append.mp hc with hc | hc
        · left; exact hD c (List.take_subset _ _ hc)
        · rcases List.mem_cons.mp hc with rfl | hc
          · right; left; rfl
          · left; exact hD c (List.drop_subset _ _ hc)

theorem fmtDouble_chars (x : ℚ) :
    ∀ c ∈ fmtDouble x, isDigit c = true ∨ c = '.' ∨ c = 'e' ∨ c = '-' ∨ c = '+' := by
  intro c hc
  unfold fmtDouble at hc
  by_cases h0 : x = 0
  · rw [if_pos h0] at hc
    rcases List.mem_singleton.mp hc with rfl
    left; decide
  · rw [if_neg h0] at hc
    rcases List.mem_append.mp hc with hc | hc
    · by_cases hlt : x < 0
      · rw [if_pos hlt] at hc
        rcases List.mem_singleton.mp hc with rfl
        right; right; right; left; rfl
      · rw [if_neg hlt] at hc
        cases hc
    · refine render6_chars _ ?_ c hc
      intro d hd
      exact decChars_digits _ d (mem_stripZeros hd)

theorem fmtDouble_not_comma (x : ℚ) : ∀ c ∈ fmtDouble x, c ≠ ',' := by
  intro c hc
  rcases fmtDouble_chars x c hc with h | h | h | h | h
  · exact isDigit_not_comma h
  all_goals (subst h; decide)

theorem GetNextCsvD_fmt {x : ℚ} (hx : Sig6 x) (prev : ℚ) (r : List Char) :
    GetNextCsvD prev (fmtDouble x ++ ',' :: r) = .ok (x, r) := by
  unfold GetNextCsvD
  rw [getField_append (fmtDouble_not_comma x)]
  show (match FieldD prev (fmtDouble x) with
    | Except.error e => Except.error e
    | Except.ok v => Except.ok (v, r)) = Except.ok (x, r)
  rw [FieldD_fmt hx prev]

theorem GetNextCsvN_dec {n : Nat} (hn : n < 2 ^ 64) (prev : Nat) (r : List Char) :
    GetNextCsvN prev (decChars n ++ ',' :: r) = .ok (n, r) := by
  unfold GetNextCsvN
  rw [getField_append (decChars_not_comma n)]
  show (match FieldN prev (decChars n) with
    | Except.error e => Except.error e
    | Except.ok v => Except.ok (v, r)) = Except.ok (n, r)
  rw [FieldN_decChars hn prev]

theorem join_append (cs : List Nat) (t rest : List Char) :
    (cs.foldr (fun c acc => decChars c ++ ',' :: acc) t) ++ rest =
      cs.foldr (fun c acc => decChars c ++ ',' :: acc) (t ++ rest) := by
  induction cs with
  | nil => rfl
  | cons c0 cs ih =>
    simp only [List.foldr_cons, List.append_assoc, List.cons_append, ih]

theorem GetNewLine_join {cs : List Nat} (hne : cs ≠ []) (t : List Char) :
    GetNewLine ('\n' :: cs.foldr (fun c acc => decChars c ++ ',' :: acc) t) =
      .ok (cs.foldr (fun c acc => decChars c ++ ',' :: acc) t) := by
  obtain ⟨c0, cs1, rfl⟩ : ∃ c0 cs1, cs = c0 :: cs1 := by
    cases h : cs with
    | nil => exact absurd h hne
    | cons c0 cs1 => exact ⟨c0, cs1, rfl⟩
  simp only [List.foldr_cons]
  exact GetNewLine_lf (decChars_not_ws c0) (decChars_ne_nil c0)

theorem readCounts_join (cs : List Nat) (hcs : ∀ c ∈ cs, c < 2 ^ 64) :
    ∀ t, readCounts cs.length (cs.foldr (fun c acc => decChars c ++ ',' :: acc) t) =
      .ok (cs, t) := by
  induction cs with
  | nil => intro t; rfl
  | cons c0 cs ih =>
    intro t
    have hc0 : c0 < 2 ^ 64 := hcs c0 (List.mem_cons_self _ _)
    have hih := ih (fun c hc => hcs c (List.mem_cons_of_mem _ hc)) t
    simp only [List.length_cons, List.foldr_cons, readCounts, GetNextCsvN_dec hc0, hih]

theorem Histogram_FromCsv_flat (h : Histogram)
    (hcnt : h.counts.length = h.numBins) (hnb1 : 1 ≤ h.numBins)
    (hnb : h.numBins < 2 ^ 64) (hcs : ∀ c ∈ h.counts, c < 2 ^ 64)
    (hlo : Sig6 h.rangeMin) (hhi : Sig6 h.rangeMax) (rest : List Char) :
    Histogram.FromCsv (decChars h.numBins ++ ',' ::
      (fmtDouble h.rangeMin ++ ',' :: (fmtDouble h.rangeMax ++ ',' :: '\n' ::
        h.counts.foldr (fun c acc => decChars c ++ ',' :: acc) ('\n' :: rest)))) =
      .ok (h, '\n' :: rest) := by
  have hne : h.counts ≠ [] := by
    intro hnil
    rw [hnil] at hcnt
    simp only [List.length_nil] at hcnt
    omega
  have hrc : ∀ t, readCounts h.numBins
      (h.counts.foldr (fun c acc => decChars c ++ ',' :: acc) t) = .ok (h.counts, t) := by
    intro t
    rw [← hcnt]
    exact readCounts_join h.counts hcs t
  simp only [Histogram.FromCsv, GetNextCsvN_dec hnb, GetNextCsvD_fmt hlo,
    GetNextCsvD_fmt hhi, GetNewLine_join hne, hrc]

/-- A snapshot that the codec can round-trip exactly: the histogram
counts agree with `numBins`, `numBins` is at least one (the spec
invariant), the `size_t` fields are in range, and the real fields are
values of at most six significant decimal digits. -/
def ValidSnap (s : Snapshot) : Prop :=
  s.hist.counts.length = s.hist.numBins ∧ 1 ≤ s.hist.numBins ∧
  s.count < 2 ^ 64 ∧ s.hist.numBins < 2 ^ 64 ∧ (∀ c ∈ s.hist.counts, c < 2 ^ 64) ∧
  Sig6 s.simTime ∧ Sig6 s.realTime ∧ Sig6 s.mean ∧ Sig6 s.var ∧
  Sig6 s.min ∧ Sig6 s.max ∧ Sig6 s.hist.rangeMin ∧ Sig6 s.hist.rangeMax

/-- What a successful `FromCsv` of the encoding of `s` should return
(the `LoadedData` fields in source order). -/
def LoadedOf (s : Snapshot) : LoadedData :=
  ⟨s.count, s.mean, s.var, s.max, s.min, s.realTime, s.simTime⟩

theorem FromCsv_ToCsv (s : Snapshot) (hv : ValidSnap s) (rest : List Char)
    (h0 : Histogram) (d0 : LoadedData) :
    FromCsv (ToCsv s ++ rest) h0 d0 = (.ok (LoadedOf s), s.hist) := by
  obtain ⟨hcnt, hnb1, hcount, hnb, hcs, hsim, hreal, hmean, hvar, hmin, hmax, hlo, hhi⟩ := hv
  have hhist := Histogram_FromCsv_flat s.hist hcnt hnb1 hnb hcs hlo hhi
  have hdrain : ∀ r : List Char, drainEof (('\n' :: r).length + 1) ('\n' :: r) = true :=
    fun r => drainEof_true _ _ (by simp)
  simp only [ToCsv, Histogram.ToCsv, List.append_assoc, List.cons_append, join_append,
    List.nil_append, FromCsv, FromCsvHeader, GetNextCsvD_fmt hsim, GetNextCsvD_fmt hreal,
    GetNextCsvN_dec hcount, GetNextCsvD_fmt hmean, GetNextCsvD_fmt hvar,
    GetNextCsvD_fmt hmin, GetNextCsvD_fmt hmax,
    GetNewLine_lf (decChars_not_ws s.count) (decChars_ne_nil s.count),
    GetNewLine_lf (decChars_not_ws s.hist.numBins) (decChars_ne_nil s.hist.numBins),
    hhist, hdrain, if_true, LoadedOf]

/-- The bounded recent-sample buffer update of the clock callback
(`main.cc` lines 220-231): when more than 250 samples are stored, the
shift loop moves every element one slot down (dropping the oldest) and
writes the new sample into the last slot; otherwise `push_back`. -/
def rtfsPush (rtfs : List ℚ) (x : ℚ) : List ℚ :=
  if 250 < rtfs.length then rtfs.tail ++ [x] else rtfs ++ [x]

/-- One clock message: the sim and real times it carries
(`ignition::common::Time(sec, nsec)` readings as exact rationals,
`sec + nsec * 10 ^ (-9)`). -/
structure Tick where
  sim : ℚ
  real : ℚ
deriving DecidableEq

/-- The mutable state shared by the clock callback and the GUI loop of
`main.cc`: the first-message flag, the stored previous message `msg_z`,
the statistics, the histogram, the recent-sample buffer `rtfs`, and the
loaded-data flag. -/
structure AppState where
  first : Bool
  msgZ : Tick
  stats : SignalStats
  hist : Histogram
  rtfs : List ℚ
  usingLoadedData : Bool
deriving DecidableEq

/-- The clock callback `cb` of `main.cc` lines 192-234: the first
message only stores the baseline; every later message computes the
instantaneous `rtf = Δsim / Δreal` against the stored baseline, always
replaces the baseline, and feeds the three aggregates only when
`animate` holds and the quotient is finite (in exact arithmetic the
quotient of finite inputs is non-finite exactly when `Δreal = 0`). -/
def cb (animate : Bool) (st : AppState) (t : Tick) : AppState :=
  if st.first then { st with msgZ := t, first := false }
  else
    let real_dt := t.real - st.msgZ.real
    let sim_dt := t.sim - st.msgZ.sim
    let rtf := sim_dt / real_dt
    let st1 := { st with msgZ := t }
    if animate ∧ real_dt ≠ 0 then
      { st1 with
        stats := st1.stats.InsertData rtf
        hist := st1.hist.InsertData rtf
        rtfs := rtfsPush st1.rtfs rtf }
    else st1

/-- The state `main` sets up before subscribing (`main.cc` lines
158-181): first-message flag set, empty statistics, a 200-bin histogram
over `[0, 2)`, empty sample buffer, no loaded data. -/
def appInit : AppState :=
  ⟨true, ⟨0, 0⟩, SignalStats.init, Histogram.init 200 0 2, [], false⟩

/-- Feeding a sequence of clock messages through the callback. -/
def runTicks (animate : Bool) (st : AppState) (ts : List Tick) : AppState :=
  ts.foldl (cb animate) st

/-- The Reset button handler of `main.cc` lines 280-285:
`hist.Reset(); stats.Reset(); usingLoadedData = false;` and nothing
else. -/
def resetHandler (st : AppState) : AppState :=
  { st with
    hist := st.hist.Reset
    stats := st.stats.Reset
    usingLoadedData := false }

/-- Statistics of a sample list from the empty accumulator. -/
def statsRun (xs : List ℚ) : SignalStats :=
  xs.foldl SignalStats.InsertData SignalStats.init

/-- Histogram after inserting a sample list. -/
def histRun (h : Histogram) (xs : List ℚ) : Histogram :=
  xs.foldl Histogram.InsertData h

theorem rtfsPush_foldl : ∀ (xs buf : List ℚ), buf.length ≤ 251 →
    xs.foldl rtfsPush buf = (buf ++ xs).drop (buf.length + xs.length - 251) := by
  intro xs
  induction xs with
  | nil =>
    intro buf h
    simp only [List.foldl_nil, List.append_nil, List.length_nil]
    rw [Nat.sub_eq_zero_of_le (by omega), List.drop_zero]
  | cons x xs ih =>
    intro buf h
    rw [List.foldl_cons]
    by_cases hb : 250 < buf.length
    · have hlen : buf.length = 251 := by omega
      obtain ⟨b0, bt, rfl⟩ : ∃ b0 bt, buf = b0 :: bt := by
        cases hc : buf with
        | nil => rw [hc] at hlen; simp at hlen
        | cons b0 bt => exact ⟨b0, bt, rfl⟩
      have hbt : bt.length = 250 := by
        simp only [List.length_cons] at hlen
        omega
      have hpush : rtfsPush (b0 :: bt) x = bt ++ [x] := by
        rw [rtfsPush, if_pos hb]
        rfl
      rw [hpush]
      have htl : (bt ++ [x]).length ≤ 251 := by
        simp only [List.length_append, List.length_cons, List.length_nil]
        omega
      rw [ih _ htl]
      have hidx1 : (bt ++ [x]).length + xs.length - 251 = xs.length := by
        simp only [List.length_append, List.length_cons, List.length_nil]
        omega
      have hidx2 : (b0 :: bt).length + (x :: xs).length - 251 = xs.length + 1 := by
        simp only [List.length_cons]
        omega
      rw [hidx1, hidx2]
      have hshape : (b0 :: bt) ++ x :: xs = b0 :: (bt ++ x :: xs) := rfl
      rw [hshape, List.drop_succ_cons]
      have hlists : bt ++ [x] ++ xs = bt ++ x :: xs := by simp
      rw [hlists]
    · have hpush : rtfsPush buf x = buf ++ [x] := by rw [rtfsPush, if_neg hb]
      rw [hpush]
      have htl : (buf ++ [x]).length ≤ 251 := by
        simp only [List.length_append, List.length_cons, List.length_nil]
        omega
      rw [ih _ htl]
      have hidx : (buf ++ [x]).length + xs.length - 251 =
          buf.length + (x :: xs).length - 251 := by
        simp only [List.length_append, List.length_cons, List.length_nil]
        omega
      have hl : buf ++ [x] ++ xs = buf ++ x :: xs := by simp
      rw [hidx, hl]

theorem rtfsPush_foldl_length : ∀ (xs buf : List ℚ), buf.length ≤ 251 →
    (xs.foldl rtfsPush buf).length = min (buf.length + xs.length) 251 := by
  intro xs buf h
  rw [rtfsPush_foldl xs buf h]
  simp only [List.length_drop, List.length_append]
  omega

theorem binIndex_lt (h : Histogram) (hnb : 1 ≤ h.numBins) (x : ℚ) :
    h.binIndex x < h.numBins := by
  unfold Histogram.binIndex
  have h1 : min (max (⌊(x - h.rangeMin) / (h.rangeMax - h.rangeMin) * (h.numBins : ℚ)⌋) 0)
      ((h.numBins : ℤ) - 1) ≤ (h.numBins : ℤ) - 1 := min_le_right _ _
  omega

theorem sum_set_succ : ∀ (l : List Nat) (i : Nat), i < l.length →
    (l.set i (l.getD i 0 + 1)).sum = l.sum + 1 := by
  intro l
  induction l with
  | nil => intro i hi; simp at hi
  | cons a l ih =>
    intro i hi
    cases i with
    | zero =>
      simp only [List.getD_cons_zero, List.set_cons_zero, List.sum_cons]
      omega
    | succ i =>
      simp only [List.getD_cons_succ, List.set_cons_succ, List.sum_cons]
      have := ih i (by simpa using hi)
      omega

theorem hist_insert_props (h : Histogram) (hnb : 1 ≤ h.numBins)
    (hlen : h.counts.length = h.numBins) (x : ℚ) :
    (h.InsertData x).counts.sum = h.counts.sum + 1 ∧
    (h.InsertData x).counts.length = h.counts.length ∧
    (h.InsertData x).numBins = h.numBins ∧
    (h.InsertData x).rangeMin = h.rangeMin ∧
    (h.InsertData x).rangeMax = h.rangeMax := by
  have hi : h.binIndex x < h.counts.length := by
    rw [hlen]
    exact binIndex_lt h hnb x
  refine ⟨sum_set_succ _ _ hi, ?_, rfl, rfl, rfl⟩
  simp [Histogram.InsertData]

theorem histRun_sum : ∀ (xs : List ℚ) (h : Histogram), 1 ≤ h.numBins →
    h.counts.length = h.numBins →
    (histRun h xs).counts.sum = h.counts.sum + xs.length ∧
    (histRun h xs).counts.length = h.counts.length ∧
    (histRun h xs).numBins = h.numBins := by
  intro xs
  induction xs with
  | nil => intro h hnb hlen; exact ⟨by simp [histRun], rfl, rfl⟩
  | cons x xs ih =>
    intro h hnb hlen
    obtain ⟨hsum, hl, hb, _, _⟩ := hist_insert_props h hnb hlen x
    have hrec := ih (h.InsertData x) (by omega) (by omega)
    unfold histRun at hrec ⊢
    rw [List.foldl_cons]
    refine ⟨?_, ?_, ?_⟩
    · rw [hrec.1, hsum]
      simp only [List.length_cons]
      omega
    · rw [hrec.2.1, hl]
    · rw [hrec.2.2, hb]

/-- Concrete initial contents for the default-initialized
`LoadedData data;` local, used at the concrete decode instances (all
members are overwritten before use there, so the choice is
immaterial). -/
def d0z : LoadedData := ⟨0, 0, 0, 0, 0, 0, 0⟩

/-- Snapshot whose simTime is the exact binary double `1 + 2 ^ (-20)`:
more than six significant decimal digits, so the default ostream
precision of `ToCsv` prints it as `1`. -/
def snapC1ce : Snapshot := ⟨1 + 1/1048576, 1, 1, 1, 0, 1, 1, ⟨1, 0, 2, [1]⟩⟩

/-- C1 (counterexample): decoding the text produced by encoding the
valid snapshot `snapC1ce` does not yield it back - `ToCsv` prints
`simTime = 1 + 2 ^ (-20)` with only six significant digits, so the
decoded simTime is `1`, a loss far beyond double representation
error. -/
theorem c1_roundtrip_counterexample :
    FromCsv (ToCsv snapC1ce) (Histogram.init 200 0 2) d0z ≠
      (.ok (LoadedOf snapC1ce), snapC1ce.hist) := by
  have hval : FromCsv (ToCsv snapC1ce) (Histogram.init 200 0 2) d0z =
      (.ok ⟨1, 1, 0, 1, 1, 1, 1⟩, ⟨1, 0, 2, [1]⟩) := by
    with_unfolding_all rfl
  rw [hval]
  intro hcontra
  have h1 : (Except.ok (LoadedData.mk 1 1 0 1 1 1 1) :
      Except ParseError LoadedData) = .ok (LoadedOf snapC1ce) :=
    congrArg Prod.fst hcontra
  have h2 : (LoadedData.mk 1 1 0 1 1 1 1) = LoadedOf snapC1ce := by
    injection h1
  have h3 : (1 : ℚ) = 1 + 1/1048576 := congrArg LoadedData.simTime h2
  norm_num at h3

/-- C1 (amended): the round-trip `Decode(Encode(s)) = s` holds exactly
for every valid snapshot whose real fields are zero or positive
decimals of at most six significant digits (the values the default
six-digit stream precision prints exactly); integer fields are always
bit-exact, and for other real fields the encoder rounds to six
significant decimal digits, as the counterexample forces. -/
theorem c1_roundtrip_sig6 (s : Snapshot) (hv : ValidSnap s) (h0 : Histogram)
    (d0 : LoadedData) :
    FromCsv (ToCsv s) h0 d0 = (.ok (LoadedOf s), s.hist) := by
  have h := FromCsv_ToCsv s hv [] h0 d0
  rwa [List.append_nil] at h

/-- Valid snapshot with six-significant-digit real fields, used to
witness the amended round-trip. -/
def snapC1w : Snapshot := ⟨1, 2, 4, 5/4, 0, 1, 2, ⟨2, 0, 2, [1, 3]⟩⟩

theorem snapC1w_valid : ValidSnap snapC1w := by
  refine ⟨by decide, by decide, by decide, by decide, by decide,
    Or.inr ⟨100000, 0, by norm_num, by norm_num, by with_unfolding_all rfl⟩,
    Or.inr ⟨200000, 0, by norm_num, by norm_num, by with_unfolding_all rfl⟩,
    Or.inr ⟨125000, 0, by norm_num, by norm_num, by with_unfolding_all rfl⟩,
    Or.inl rfl,
    Or.inr ⟨100000, 0, by norm_num, by norm_num, by with_unfolding_all rfl⟩,
    Or.inr ⟨200000, 0, by norm_num, by norm_num, by with_unfolding_all rfl⟩,
    Or.inl rfl,
    Or.inr ⟨200000, 0, by norm_num, by norm_num, by with_unfolding_all rfl⟩⟩

theorem c1_roundtrip_sig6_witness :
    ValidSnap snapC1w ∧
      FromCsv (ToCsv snapC1w) (Histogram.init 200 0 2) d0z =
        (.ok (LoadedOf snapC1w), snapC1w.hist) :=
  ⟨snapC1w_valid,
    c1_roundtrip_sig6 snapC1w snapC1w_valid (Histogram.init 200 0 2) d0z⟩

/-- Valid snapshot used for the trailing-data claims. -/
def snapC2 : Snapshot := ⟨1, 2, 3, 1, 0, 1, 1, ⟨1, 0, 2, [3]⟩⟩

/-- C2 (counterexample): a persisted-session text with an extra trailing
token (here a space and `x`) after the last histogram count decodes
successfully - the drain loop of `FromCsv` consumes (and echoes) the
extra tokens and the final `eof` check passes, so no ParseError is
raised, contradicting the claim. -/
theorem c2_trailing_counterexample :
    (FromCsv (ToCsv snapC2 ++ [' ', 'x']) (Histogram.init 200 0 2) d0z).1 =
      .ok (LoadedOf snapC2) := by
  with_unfolding_all rfl

/-- C2 (amended): extra trailing data after the last histogram count is
consumed by the drain loop at the end of `FromCsv` (and echoed to
standard output); the `eof` check after that loop always passes, so the
decode succeeds and returns the same data as without the trailing
text - the extra data is silently ignored, not rejected. -/
theorem c2_trailing_ignored (s : Snapshot) (hv : ValidSnap s) (extra : List Char)
    (h0 : Histogram) (d0 : LoadedData) :
    FromCsv (ToCsv s ++ extra) h0 d0 = (.ok (LoadedOf s), s.hist) :=
  FromCsv_ToCsv s hv extra h0 d0

theorem c2_trailing_ignored_witness :
    ValidSnap snapC2 ∧
      FromCsv (ToCsv snapC2 ++ [' ', 'x']) (Histogram.init 200 0 2) d0z =
        (.ok (LoadedOf snapC2), snapC2.hist) := by
  have hv : ValidSnap snapC2 := by
    refine ⟨by decide, by decide, by decide, by decide, by decide,
      Or.inr ⟨100000, 0, by norm_num, by norm_num, by with_unfolding_all rfl⟩,
      Or.inr ⟨200000, 0, by norm_num, by norm_num, by with_unfolding_all rfl⟩,
      Or.inr ⟨100000, 0, by norm_num, by norm_num, by with_unfolding_all rfl⟩,
      Or.inl rfl,
      Or.inr ⟨100000, 0, by norm_num, by norm_num, by with_unfolding_all rfl⟩,
      Or.inr ⟨100000, 0, by norm_num, by norm_num, by with_unfolding_all rfl⟩,
      Or.inl rfl,
      Or.inr ⟨200000, 0, by norm_num, by norm_num, by with_unfolding_all rfl⟩⟩
  exact ⟨hv, c2_trailing_ignored snapC2 hv [' ', 'x'] (Histogram.init 200 0 2) d0z⟩

/-- C3: the clock callback emits no sample for the first tick (it only
stores the baseline), for each later tick it computes the instantaneous
`rtf = Δsim / Δreal` against the previous tick, always replaces the
baseline, inserts the sample into all three aggregates exactly when the
value is finite (`Δreal ≠ 0`), and drops it silently otherwise; feeding
the ticks `(0,0), (1,1), (3,2)` emits exactly the samples `1` then `2`. -/
theorem c3_converter :
    (∀ (a : Bool) (st : AppState) (t : Tick), st.first = true →
        cb a st t = { st with msgZ := t, first := false }) ∧
    (∀ (st : AppState) (t : Tick), st.first = false →
        t.real - st.msgZ.real ≠ 0 →
        cb true st t =
          { st with
              msgZ := t
              stats := st.stats.InsertData ((t.sim - st.msgZ.sim) / (t.real - st.msgZ.real))
              hist := st.hist.InsertData ((t.sim - st.msgZ.sim) / (t.real - st.msgZ.real))
              rtfs := rtfsPush st.rtfs ((t.sim - st.msgZ.sim) / (t.real - st.msgZ.real)) }) ∧
    (∀ (a : Bool) (st : AppState) (t : Tick), st.first = false →
        t.real - st.msgZ.real = 0 →
        cb a st t = { st with msgZ := t }) ∧
    (runTicks true appInit [⟨0, 0⟩, ⟨1, 1⟩, ⟨3, 2⟩]).rtfs = [1, 2] := by
  refine ⟨?_, ?_, ?_, ?_⟩
  · intro a st t h
    simp [cb, h]
  · intro st t h1 h2
    simp [cb, h1, h2]
  · intro a st t h1 h2
    simp [cb, h1, h2]
  · with_unfolding_all rfl

/-- Non-first state used to witness the streaming branch of the
converter claim. -/
def stC3 : AppState := { appInit with first := false, msgZ := ⟨1, 1⟩ }

theorem c3_converter_witness :
    (stC3.first = false ∧ (Tick.mk 3 2).real - stC3.msgZ.real ≠ 0) ∧
      cb true stC3 ⟨3, 2⟩ =
        { stC3 with
            msgZ := ⟨3, 2⟩
            stats := stC3.stats.InsertData
              (((3 : ℚ) - stC3.msgZ.sim) / ((2 : ℚ) - stC3.msgZ.real))
            hist := stC3.hist.InsertData
              (((3 : ℚ) - stC3.msgZ.sim) / ((2 : ℚ) - stC3.msgZ.real))
            rtfs := rtfsPush stC3.rtfs
              (((3 : ℚ) - stC3.msgZ.sim) / ((2 : ℚ) - stC3.msgZ.real)) } :=
  ⟨⟨rfl, by show ¬(2 : ℚ) - 1 = 0; norm_num⟩,
    c3_converter.2.1 stC3 ⟨3, 2⟩ rfl (by show ¬(2 : ℚ) - 1 = 0; norm_num)⟩

/-- C4: appending `capacity + k` samples to the empty recent-sample
buffer leaves exactly 251 samples - the last 251 appended values in
oldest-first order - and the buffer never grows beyond 251 entries. -/
theorem c4_bounded_buffer :
    (∀ xs : List ℚ, 251 ≤ xs.length →
        xs.foldl rtfsPush [] = xs.drop (xs.length - 251) ∧
        (xs.foldl rtfsPush []).length = 251) ∧
    (∀ xs : List ℚ, (xs.foldl rtfsPush []).length ≤ 251) := by
  constructor
  · intro xs h
    have h1 := rtfsPush_foldl xs [] (by simp)
    simp only [List.nil_append, List.length_nil, Nat.zero_add] at h1
    refine ⟨h1, ?_⟩
    rw [h1]
    simp only [List.length_drop]
    omega
  · intro xs
    have h1 := rtfsPush_foldl_length xs [] (by simp)
    simp only [List.length_nil, Nat.zero_add] at h1
    omega

def bufC4 : List ℚ := List.map (Nat.cast : ℕ → ℚ) (List.range 252)

theorem c4_bounded_buffer_witness :
    251 ≤ bufC4.length ∧
      (bufC4.foldl rtfsPush [] = bufC4.drop (bufC4.length - 251) ∧
        (bufC4.foldl rtfsPush []).length = 251) :=
  ⟨by rw [bufC4, List.length_map, List.length_range]; omega,
    c4_bounded_buffer.1 bufC4
      (by rw [bufC4, List.length_map, List.length_range]; omega)⟩

/-- C5: for every valid configuration (at least one bin, proper range)
and every sequence of inserted samples, the sum of the bin counts
equals the number of inserted samples - out-of-range samples are
clamped into an edge bin (the clamped index is always below
`numBins`), never dropped. -/
theorem c5_histogram_conservation (nb : Nat) (lo hi : ℚ) (hnb : 1 ≤ nb)
    (hrange : lo < hi) (xs : List ℚ) :
    (histRun (Histogram.init nb lo hi) xs).counts.sum = xs.length ∧
    (∀ (h : Histogram) (x : ℚ), 1 ≤ h.numBins → h.binIndex x < h.numBins) := by
  constructor
  · have h := histRun_sum xs (Histogram.init nb lo hi) hnb (by simp [Histogram.init])
    have hz : (Histogram.init nb lo hi).counts.sum = 0 := by
      simp [Histogram.init]
    rw [h.1, hz]
    omega
  · intro h x hh
    exact binIndex_lt h hh x

theorem c5_histogram_conservation_witness :
    (1 ≤ 3 ∧ (0 : ℚ) < 2) ∧
      ((histRun (Histogram.init 3 0 2) [-1, 1/2, 5, 1]).counts.sum = 4 ∧
        (∀ (h : Histogram) (x : ℚ), 1 ≤ h.numBins → h.binIndex x < h.numBins)) :=
  ⟨⟨by norm_num, by norm_num⟩, by
    have h := c5_histogram_conservation 3 0 2 (by norm_num) (by norm_num)
      [-1, 1/2, 5, 1]
    simpa using h⟩

/-- C6: when `FromCsv` fails with a ParseError, the live histogram
passed to it by reference is left unchanged (the decoded `LoadedData`
is not produced at all on failure, so the destination snapshot is never
partially visible).  The drain-loop `eof` check cannot fail, so no
failure can occur after the histogram has been assigned. -/
theorem c6_failed_decode_preserves (input : List Char) (h0 : Histogram)
    (d0 : LoadedData) (e : ParseError) :
    (FromCsv input h0 d0).1 = .error e → (FromCsv input h0 d0).2 = h0 := by
  intro herr
  cases hH : FromCsvHeader d0 input with
  | error e2 =>
    unfold FromCsv
    rw [hH]
  | ok p =>
    obtain ⟨d, s1⟩ := p
    cases hG : Histogram.FromCsv s1 with
    | error e2 =>
      unfold FromCsv
      rw [hH]
      show (match Histogram.FromCsv s1 with
        | Except.error e => ((Except.error e :
            Except ParseError LoadedData), h0)
        | Except.ok (h1, s2) =>
          if drainEof (s2.length + 1) s2 then (Except.ok d, h1)
          else (Except.error ParseError.fail, h1)).2 = h0
      rw [hG]
    | ok q =>
      obtain ⟨h1, s2⟩ := q
      have hdr : drainEof (s2.length + 1) s2 = true := drainEof_true _ _ (by omega)
      have hcomp : FromCsv input h0 d0 = (Except.ok d, h1) := by
        unfold FromCsv
        rw [hH]
        show (match Histogram.FromCsv s1 with
          | Except.error e => ((Except.error e :
              Except ParseError LoadedData), h0)
          | Except.ok (h1, s2) =>
            if drainEof (s2.length + 1) s2 then (Except.ok d, h1)
            else (Except.error ParseError.fail, h1)) = (Except.ok d, h1)
        rw [hG]
        show (if drainEof (s2.length + 1) s2 then ((Except.ok d :
            Except ParseError LoadedData), h1)
          else (Except.error ParseError.fail, h1)) = (Except.ok d, h1)
        rw [if_pos hdr]
      rw [hcomp] at herr
      cases herr

theorem c6_failed_decode_preserves_witness :
    (FromCsv [] (Histogram.init 200 0 2) d0z).1 = .error .fail ∧
      (FromCsv [] (Histogram.init 200 0 2) d0z).2 = Histogram.init 200 0 2 :=
  ⟨by with_unfolding_all rfl,
    c6_failed_decode_preserves [] (Histogram.init 200 0 2) d0z .fail
      (by with_unfolding_all rfl)⟩

/-- C7: a comma-delimited field whose strict integer conversion leaves
unconsumed characters makes `GetNextCsv` throw a ParseError (the inner
stream has not reached `eof`); in particular the field `12abc` read as
an integer is an error, not a partial success with value 12. -/
theorem c7_strict_field :
    (∀ (F r leftover : List Char) (v prev : Nat), (∀ c ∈ F, c ≠ ',') →
        parseNat64 F = (some v, leftover) → leftover ≠ [] →
        GetNextCsvN prev (F ++ ',' :: r) = .error .fail) ∧
    (∀ (prev : Nat) (r : List Char),
      GetNextCsvN prev (['1', '2', 'a', 'b', 'c'] ++ ',' :: r) = .error .fail) := by
  constructor
  · intro F r leftover v prev hF hp hne
    have hws : ¬ F.dropWhile isWs = [] := by
      intro h0
      have hcontra : parseNat64 F = (none, []) := by
        simp only [parseNat64, h0]
        rfl
      rw [hp] at hcontra
      simp at hcontra
    unfold GetNextCsvN
    rw [getField_append hF]
    show (match FieldN prev F with
      | Except.error e => Except.error e
      | Except.ok v => Except.ok (v, r)) = Except.error ParseError.fail
    unfold FieldN
    rw [if_neg hws, hp]
    cases leftover with
    | nil => exact absurd rfl hne
    | cons c t => rfl
  · intro prev r
    unfold GetNextCsvN
    rw [getField_append (by decide)]
    rfl

theorem c7_strict_field_witness :
    ((∀ c ∈ ['1', '2', 'a', 'b', 'c'], c ≠ ',') ∧
        parseNat64 ['1', '2', 'a', 'b', 'c'] = (some 12, ['a', 'b', 'c']) ∧
        (['a', 'b', 'c'] : List Char) ≠ []) ∧
      GetNextCsvN 0 (['1', '2', 'a', 'b', 'c'] ++ ',' :: []) = .error .fail :=
  ⟨⟨by decide, by decide, by decide⟩,
    c7_strict_field.1 ['1', '2', 'a', 'b', 'c'] [] ['a', 'b', 'c'] 12 0
      (by decide) (by decide) (by decide)⟩

/-- C8: inserting the finite sequence `[1, 2, 3, 4]` into the empty
statistics accumulator yields count 4, mean 5/2, min 1, max 4 and the
population variance 5/4 (the accumulator's documented convention), and
`InsertData` never rejects a value - every insertion increments the
count. -/
theorem c8_stats :
    (statsRun [1, 2, 3, 4]).count = 4 ∧
    (statsRun [1, 2, 3, 4]).mean = 5/2 ∧
    SignalStats.var (statsRun [1, 2, 3, 4]) = 5/4 ∧
    (statsRun [1, 2, 3, 4]).min = 1 ∧
    (statsRun [1, 2, 3, 4]).max = 4 ∧
    (∀ (s : SignalStats) (x : ℚ), (s.InsertData x).count = s.count + 1) := by
  refine ⟨by with_unfolding_all rfl, by with_unfolding_all rfl,
    by with_unfolding_all rfl, by with_unfolding_all rfl,
    by with_unfolding_all rfl, ?_⟩
  intro s x
  rfl

/-- C9 (counterexample): an empty field does not leave the destination
value-initialized to 0 - with a destination holding 7, reading the
empty field returns 7, not 0: the extraction sentry of `operator>>`
fails at once (the whitespace skip runs into the end of the empty
inner stream) before `num_get` runs, so nothing is written to the
destination, which in `FromCsv` is an indeterminate member of the
uninitialized `LoadedData data;` local (`main.cc` line 85). -/
theorem c9_empty_field_counterexample :
    GetNextCsvD 7 [','] = .ok (7, []) ∧ GetNextCsvD 7 [','] ≠ .ok (0, []) := by
  have h7 : GetNextCsvD 7 [','] = .ok (7, []) := by with_unfolding_all rfl
  refine ⟨h7, ?_⟩
  rw [h7]
  intro hc
  have h2 : ((7 : ℚ), ([] : List Char)) = ((0 : ℚ), ([] : List Char)) := by
    injection hc
  have h3 : (7 : ℚ) = 0 := congrArg Prod.fst h2
  norm_num at h3

/-- C9 (amended): an empty field (two consecutive commas, or a comma
right after a skipped newline) raises no ParseError - the extraction
sentry fails having already reached the end of the field, so `eofbit`
is set and the strict `eof` check passes - but the destination is left
unmodified, keeping its previous value (in `FromCsv` an indeterminate
member of the uninitialized `LoadedData` local), not value-initialized
to 0; by contrast a non-empty field whose conversion fails after
consuming the whole field (`.` for a double, a bare `-` for a
`size_t`) does set the destination to 0, as `num_get` runs there. -/
theorem c9_empty_field_kept (prevD : ℚ) (prevN : Nat) (r : List Char) :
    GetNextCsvD prevD (',' :: r) = .ok (prevD, r) ∧
    GetNextCsvN prevN (',' :: r) = .ok (prevN, r) ∧
    GetNextCsvD prevD ('.' :: ',' :: r) = .ok ((0 : ℚ), r) ∧
    GetNextCsvN prevN ('-' :: ',' :: r) = .ok (0, r) := by
  have hg : getField (',' :: r) = .ok ([], r) := by simp [getField]
  have hgd : getField ('.' :: ',' :: r) = .ok (['.'], r) := by simp [getField]
  have hgm : getField ('-' :: ',' :: r) = .ok (['-'], r) := by simp [getField]
  refine ⟨?_, ?_, ?_, ?_⟩
  · unfold GetNextCsvD
    rw [hg]
    rfl
  · unfold GetNextCsvN
    rw [hg]
    rfl
  · unfold GetNextCsvD
    rw [hgd]
    with_unfolding_all rfl
  · unfold GetNextCsvN
    rw [hgm]
    with_unfolding_all rfl

/-- C10: the Reset button handler resets the histogram counts (keeping
its configuration), resets the statistics to the empty state and clears
the loaded-data flag, but leaves the recent-sample buffer - and the
converter baseline - untouched. -/
theorem c10_reset (st : AppState) :
    (resetHandler st).rtfs = st.rtfs ∧
    (resetHandler st).stats = SignalStats.init ∧
    (resetHandler st).hist.numBins = st.hist.numBins ∧
    (resetHandler st).hist.rangeMin = st.hist.rangeMin ∧
    (resetHandler st).hist.rangeMax = st.hist.rangeMax ∧
    (resetHandler st).hist.counts = List.replicate st.hist.numBins 0 ∧
    (resetHandler st).usingLoadedData = false ∧
    (resetHandler st).first = st.first ∧
    (resetHandler st).msgZ = st.msgZ :=
  ⟨rfl, rfl, rfl, rfl, rfl, rfl, rfl, rfl, rfl⟩
